import Mathlib

/-!
Verification of the raytracer renderer against its specification.

The floating-point scalars of the source (`f64`) are modelled as exact
rationals `ℚ`; the IEEE infinities, which appear only as interval bounds
(`Aabb::default`, the `t_max = +∞` of the integrator and of
`ConstantMedium`), are modelled by `WithBot (WithTop ℚ)`.  Square roots,
logarithms and random samples, which the source obtains from `f64::sqrt`,
`f64::ln` and the thread RNG, are passed in as explicit parameters, with
their defining properties stated as hypotheses where a theorem needs them.
-/

namespace RT

/-- Three f64 components, as in `common/vec3.rs` (`Vec3`, aliases `Point3`
and `Color`). -/
structure Vec3 where
  x : ℚ
  y : ℚ
  z : ℚ
deriving DecidableEq

instance : Zero Vec3 := ⟨⟨0, 0, 0⟩⟩

/-- Componentwise addition (`impl Add for Vec3`). -/
instance : Add Vec3 := ⟨fun a b => ⟨a.x + b.x, a.y + b.y, a.z + b.z⟩⟩

/-- Componentwise subtraction (`impl Sub for Vec3`). -/
instance : Sub Vec3 := ⟨fun a b => ⟨a.x - b.x, a.y - b.y, a.z - b.z⟩⟩

/-- Componentwise negation (`impl Neg for Vec3`). -/
instance : Neg Vec3 := ⟨fun a => ⟨-a.x, -a.y, -a.z⟩⟩

/-- Componentwise (Hadamard) product (`impl Mul for Vec3`). -/
instance : Mul Vec3 := ⟨fun a b => ⟨a.x * b.x, a.y * b.y, a.z * b.z⟩⟩

/-- Scalar times vector (`impl Mul<Vec3> for f64` and `impl Mul<f64> for Vec3`). -/
instance : SMul ℚ Vec3 := ⟨fun s a => ⟨s * a.x, s * a.y, s * a.z⟩⟩

/-- Vector divided by a scalar (`impl Div<f64> for Vec3`). -/
def Vec3.sdiv (a : Vec3) (s : ℚ) : Vec3 := ⟨a.x / s, a.y / s, a.z / s⟩

/-- Dot product (`Vec3::dot`). -/
def Vec3.dot (a b : Vec3) : ℚ := a.x * b.x + a.y * b.y + a.z * b.z

/-- Squared length (`Vec3::length_squared`), the vector dotted with itself. -/
def Vec3.lengthSquared (a : Vec3) : ℚ := a.dot a

/-- Component selection by axis index, as `impl Index<usize> for Vec3`
(0 = x, 1 = y, 2 = z). -/
def Vec3.comp (a : Vec3) : Fin 3 → ℚ
  | 0 => a.x
  | 1 => a.y
  | 2 => a.z

/-- A ray with an origin, a direction and a time (`common/ray.rs`). -/
structure Ray where
  orig : Vec3
  dir : Vec3
  time : ℚ
deriving DecidableEq

/-- The point on the ray at parameter `t` (`Ray::at`): `origin + t·direction`. -/
def Ray.at (r : Ray) (t : ℚ) : Vec3 := r.orig + t • r.dir

/-- Clamp of `common::clamp`: `x` forced into `[lo, hi]`, testing the low
bound first. -/
def clamp (x lo hi : ℚ) : ℚ :=
  if x < lo then lo else if x > hi then hi else x

/-- An axis-aligned bounding box with finite rational corners
(`hittable/aabb.rs`, `Aabb`), used everywhere the source manipulates boxes
of concrete primitives. -/
structure Aabb where
  min : Vec3
  max : Vec3
deriving DecidableEq

/-- The enclosing box of two boxes (`Aabb::surrounding_box`): componentwise
min of the two min corners and max of the two max corners. -/
def Aabb.surrounding (b0 b1 : Aabb) : Aabb :=
  ⟨⟨Min.min b0.min.x b1.min.x, Min.min b0.min.y b1.min.y,
    Min.min b0.min.z b1.min.z⟩,
   ⟨Max.max b0.max.x b1.max.x, Max.max b0.max.y b1.max.y,
    Max.max b0.max.z b1.max.z⟩⟩

/-- One axis of the slab test of `Aabb::hit`: starting from the running
interval `(tmin, tmax)`, intersect it with the parameter interval of the
slab `[mn, mx]` along a direction component `d`.  Faithful to the source
for `d ≠ 0`; the source relies on IEEE infinities when `d = 0`, which the
rational model excludes by hypothesis. -/
def slabAxis (mn mx o d tmin tmax : ℚ) : ℚ × ℚ :=
  let invD := 1 / d
  let t0 := (mn - o) * invD
  let t1 := (mx - o) * invD
  let s := if invD < 0 then (t1, t0) else (t0, t1)
  (if s.1 > tmin then s.1 else tmin, if s.2 < tmax then s.2 else tmax)

/-- The slab test of `Aabb::hit`, the three axis iterations unrolled with the
early `tmax ≤ tmin` exits of the loop preserved. -/
def aabbHit (bx : Aabb) (r : Ray) (tmin tmax : ℚ) : Option (ℚ × ℚ) :=
  let p1 := slabAxis bx.min.x bx.max.x r.orig.x r.dir.x tmin tmax
  if p1.2 ≤ p1.1 then none else
  let p2 := slabAxis bx.min.y bx.max.y r.orig.y r.dir.y p1.1 p1.2
  if p2.2 ≤ p2.1 then none else
  let p3 := slabAxis bx.min.z bx.max.z r.orig.z r.dir.z p2.1 p2.2
  if p3.2 ≤ p3.1 then none else some p3

/-- A hit record (`hittable/hit_record.rs`), generic in the type `M` used to
model the `Arc<dyn Material>` pointer. -/
structure HitRec (M : Type) where
  p : Vec3
  normal : Vec3
  mat : M
  t : ℚ
  u : ℚ
  v : ℚ
  front_face : Bool
deriving DecidableEq

/-- The front-face test of `HitRecord::hit_front_face`: true when the ray
direction opposes the outward normal. -/
def hitFrontFace (r : Ray) (outward : Vec3) : Bool :=
  decide (r.dir.dot outward < 0)

/-- Constructor `HitRecord::with_face_normal`: computes `front_face` from the
ray and the outward normal and stores the normal flipped against the ray. -/
def withFaceNormal {M : Type} (r : Ray) (point : Vec3) (outward : Vec3)
    (mat : M) (t u v : ℚ) : HitRec M :=
  let ff := hitFrontFace r outward
  ⟨point, if ff then outward else -outward, mat, t, u, v, ff⟩

/-- Mutator `HitRecord::set_face_normal`, recomputing `front_face` and the
stored normal of an existing record from a ray and an outward normal. -/
def setFaceNormal {M : Type} (rec : HitRec M) (r : Ray) (outward : Vec3) :
    HitRec M :=
  let ff := hitFrontFace r outward
  { rec with front_face := ff, normal := if ff then outward else -outward }

/-- The rectangle of `aa_rect.rs` aligned on the xy plane at `z = k`, with its
material modelled by a value of type `M`. -/
structure XYRect (M : Type) where
  x0 : ℚ
  x1 : ℚ
  y0 : ℚ
  y1 : ℚ
  k : ℚ
  mp : M
deriving DecidableEq

/-- Intersection of `XYRect::hit`: solve `t` from the z slab, reject `t`
outside the closed `[t_min, t_max]`, then test the in-plane coordinates
against the closed rectangle.  Faithful to the source for `r.dir.z ≠ 0`. -/
def XYRect.hit {M : Type} (rect : XYRect M) (r : Ray) (t_min t_max : ℚ) :
    Option (HitRec M) :=
  let t := (rect.k - r.orig.z) / r.dir.z
  if t < t_min ∨ t > t_max then none
  else
    let x := r.orig.x + t * r.dir.x
    let y := r.orig.y + t * r.dir.y
    if x < rect.x0 ∨ x > rect.x1 ∨ y < rect.y0 ∨ y > rect.y1 then none
    else
      some (withFaceNormal r (r.at t) ⟨0, 0, 1⟩ rect.mp t
        ((x - rect.x0) / (rect.x1 - rect.x0))
        ((y - rect.y0) / (rect.y1 - rect.y0)))

/-- Bounding box of `XYRect::bounding_box`, padded by `0.001` in z. -/
def XYRect.boundingBox {M : Type} (rect : XYRect M) : Aabb :=
  ⟨⟨rect.x0, rect.y0, rect.k - 1/1000⟩, ⟨rect.x1, rect.y1, rect.k + 1/1000⟩⟩

/-- The rectangle of `aa_rect.rs` aligned on the xz plane at `y = k`. -/
structure XZRect (M : Type) where
  x0 : ℚ
  x1 : ℚ
  z0 : ℚ
  z1 : ℚ
  k : ℚ
  mp : M
deriving DecidableEq

/-- Intersection of `XZRect::hit` (same shape as `XYRect::hit` with the y
axis degenerate).  Faithful to the source for `r.dir.y ≠ 0`. -/
def XZRect.hit {M : Type} (rect : XZRect M) (r : Ray) (t_min t_max : ℚ) :
    Option (HitRec M) :=
  let t := (rect.k - r.orig.y) / r.dir.y
  if t < t_min ∨ t > t_max then none
  else
    let x := r.orig.x + t * r.dir.x
    let z := r.orig.z + t * r.dir.z
    if x < rect.x0 ∨ x > rect.x1 ∨ z < rect.z0 ∨ z > rect.z1 then none
    else
      some (withFaceNormal r (r.at t) ⟨0, 1, 0⟩ rect.mp t
        ((x - rect.x0) / (rect.x1 - rect.x0))
        ((z - rect.z0) / (rect.z1 - rect.z0)))

/-- The rectangle of `aa_rect.rs` aligned on the yz plane at `x = k`. -/
structure YZRect (M : Type) where
  y0 : ℚ
  y1 : ℚ
  z0 : ℚ
  z1 : ℚ
  k : ℚ
  mp : M
deriving DecidableEq

/-- Intersection of `YZRect::hit` (same shape as `XYRect::hit` with the x
axis degenerate).  Faithful to the source for `r.dir.x ≠ 0`. -/
def YZRect.hit {M : Type} (rect : YZRect M) (r : Ray) (t_min t_max : ℚ) :
    Option (HitRec M) :=
  let t := (rect.k - r.orig.x) / r.dir.x
  if t < t_min ∨ t > t_max then none
  else
    let y := r.orig.y + t * r.dir.y
    let z := r.orig.z + t * r.dir.z
    if y < rect.y0 ∨ y > rect.y1 ∨ z < rect.z0 ∨ z > rect.z1 then none
    else
      some (withFaceNormal r (r.at t) ⟨1, 0, 0⟩ rect.mp t
        ((y - rect.y0) / (rect.y1 - rect.y0))
        ((z - rect.z0) / (rect.z1 - rect.z0)))

/-- The sphere of `hittable/sphere.rs` with a center, a radius and a
material. -/
structure SphereS (M : Type) where
  center : Vec3
  radius : ℚ
  mp : M
deriving DecidableEq

/-- Intersection of `Sphere::hit`.  The source takes `root = f64::sqrt(disc)`;
the square root is passed in as the explicit parameter `root`, constrained by
`root * root = disc ∧ 0 ≤ root` in the theorems that need it.  The two
quadratic roots are tested near-first against the open `(t_min, t_max)`.
The revision under verification builds the record without surface
coordinates, so `u = v = 0` here. -/
def SphereS.hitWithRoot {M : Type} (s : SphereS M) (r : Ray)
    (t_min t_max root : ℚ) : Option (HitRec M) :=
  let oc := r.orig - s.center
  let a := r.dir.lengthSquared
  let half_b := oc.dot r.dir
  let c := oc.lengthSquared - s.radius * s.radius
  let disc := half_b * half_b - a * c
  if disc > 0 then
    let tNear := (-half_b - root) / a
    if tNear < t_max ∧ tNear > t_min then
      some (withFaceNormal r (r.at tNear)
        ((r.at tNear - s.center).sdiv s.radius) s.mp tNear 0 0)
    else
      let tFar := (-half_b + root) / a
      if tFar < t_max ∧ tFar > t_min then
        some (withFaceNormal r (r.at tFar)
          ((r.at tFar - s.center).sdiv s.radius) s.mp tFar 0 0)
      else none
  else none

/-- Bounding box of `Sphere::bounding_box`: the cube of half-side `radius`
around the center. -/
def SphereS.boundingBox {M : Type} (s : SphereS M) : Aabb :=
  ⟨s.center - ⟨s.radius, s.radius, s.radius⟩,
   s.center + ⟨s.radius, s.radius, s.radius⟩⟩

/-- The moving sphere of `hittable/moving_sphere.rs`: the center slides
linearly from `center0` at `time0` to `center1` at `time1`. -/
structure MovingSphereS (M : Type) where
  center0 : Vec3
  center1 : Vec3
  time0 : ℚ
  time1 : ℚ
  radius : ℚ
  mp : M
deriving DecidableEq

/-- `MovingSphere::center`: linear interpolation of the center at `time`. -/
def MovingSphereS.center {M : Type} (s : MovingSphereS M) (time : ℚ) :
    Vec3 :=
  s.center0 +
    ((time - s.time0) / (s.time1 - s.time0)) • (s.center1 - s.center0)

/-- Intersection of `MovingSphere::hit`, identical in shape to `Sphere::hit`
but against the center at the time of the ray; `root` stands for
`f64::sqrt(discriminant)` as for the sphere, and the record is built by
`with_face_normal` without surface coordinates. -/
def MovingSphereS.hitWithRoot {M : Type} (s : MovingSphereS M) (r : Ray)
    (t_min t_max root : ℚ) : Option (HitRec M) :=
  let oc := r.orig - s.center r.time
  let a := r.dir.lengthSquared
  let half_b := oc.dot r.dir
  let c := oc.lengthSquared - s.radius * s.radius
  let disc := half_b * half_b - a * c
  if disc > 0 then
    let tNear := (-half_b - root) / a
    if tNear < t_max ∧ tNear > t_min then
      some (withFaceNormal r (r.at tNear)
        ((r.at tNear - s.center r.time).sdiv s.radius) s.mp tNear 0 0)
    else
      let tFar := (-half_b + root) / a
      if tFar < t_max ∧ tFar > t_min then
        some (withFaceNormal r (r.at tFar)
          ((r.at tFar - s.center r.time).sdiv s.radius) s.mp tFar 0 0)
      else none
  else none

/-- An f64 value extended with the IEEE infinities: `⊥` models
`f64::NEG_INFINITY` and `⊤` models `f64::INFINITY`. -/
abbrev QInf : Type := WithBot (WithTop ℚ)

/-- A point whose components may be infinite, for `Aabb::default`. -/
structure EVec3 where
  x : QInf
  y : QInf
  z : QInf
deriving DecidableEq

/-- A bounding box with possibly infinite corners, the form in which
`Aabb::default` and `HittableList::bounding_box` manipulate boxes. -/
structure EAabb where
  min : EVec3
  max : EVec3
deriving DecidableEq

/-- The box of `impl Default for Aabb`: `min` components `+∞` and `max`
components `−∞`. -/
def defaultEAabb : EAabb := ⟨⟨⊤, ⊤, ⊤⟩, ⟨⊥, ⊥, ⊥⟩⟩

/-- `Aabb::surrounding_box` on extended boxes: componentwise min of the min
corners and max of the max corners (the `f64::min`/`f64::max` calls of the
source). -/
def surroundingE (b0 b1 : EAabb) : EAabb :=
  ⟨⟨Min.min b0.min.x b1.min.x, Min.min b0.min.y b1.min.y,
    Min.min b0.min.z b1.min.z⟩,
   ⟨Max.max b0.max.x b1.max.x, Max.max b0.max.y b1.max.y,
    Max.max b0.max.z b1.max.z⟩⟩

/-- An all-finite extended box, for stating the finite-corner case. -/
def EAabb.finite (b : EAabb) : Prop :=
  b.min.x ≠ ⊥ ∧ b.min.x ≠ ⊤ ∧ b.min.y ≠ ⊥ ∧ b.min.y ≠ ⊤ ∧
  b.min.z ≠ ⊥ ∧ b.min.z ≠ ⊤ ∧ b.max.x ≠ ⊥ ∧ b.max.x ≠ ⊤ ∧
  b.max.y ≠ ⊥ ∧ b.max.y ≠ ⊤ ∧ b.max.z ≠ ⊥ ∧ b.max.z ≠ ⊤

/-- `HittableList::bounding_box` with each member of the list modelled by the
`Option EAabb` its own `bounding_box` call returns: `None` for the empty
list, otherwise the members mapped to their boxes, the absent boxes filtered
out ( `.map(..).filter(is_some)` with the unwrap of the fold, which is
`List.filterMap id` ), and the present ones folded with `surrounding_box`
starting from `Aabb::default()`. -/
def hittableListBoundingBox (boxes : List (Option EAabb)) : Option EAabb :=
  if boxes = [] then none
  else some ((boxes.filterMap id).foldl surroundingE defaultEAabb)

/-- Gamma-correcting tone map `Renderer::multi_sample`.  `sqrtFn` stands for
`f64::sqrt`.  Scales the accumulated color by `1/samples`, takes the square
root per channel, clamps to `[0, 0.999]` and scales by 256. -/
def multiSample (sqrtFn : ℚ → ℚ) (pixel : Vec3) (samples : ℕ) : Vec3 :=
  let scale : ℚ := 1 / (samples : ℚ)
  let r := sqrtFn (scale * pixel.x)
  let g := sqrtFn (scale * pixel.y)
  let b := sqrtFn (scale * pixel.z)
  ⟨256 * clamp r 0 (999/1000), 256 * clamp g 0 (999/1000),
   256 * clamp b 0 (999/1000)⟩

/-- The `as u8` cast applied to each channel in `ppm::write_file`: an IEEE
float-to-integer cast that truncates toward zero and saturates at the byte
range. -/
def f64AsU8 (q : ℚ) : ℕ :=
  if q ≤ 0 then 0 else if (255 : ℚ) ≤ q then 255 else (Int.floor q).toNat

/-- The `Translate` wrapper of `hittable/translate.rs`, with the inner
hittable modelled by its `hit` function. -/
structure TranslateM (M : Type) where
  innerHit : Ray → ℚ → ℚ → Option (HitRec M)
  offset : Vec3

/-- `Translate::hit`: subtract the offset from the ray origin, delegate, add
the offset back to the hit point, and re-run `set_face_normal` against the
moved ray with the own (already flipped) normal of the record as the outward
normal. -/
def TranslateM.hit {M : Type} (tr : TranslateM M) (r : Ray)
    (t_min t_max : ℚ) : Option (HitRec M) :=
  let moved : Ray := ⟨r.orig - tr.offset, r.dir, r.time⟩
  match tr.innerHit moved t_min t_max with
  | some rec => some (setFaceNormal { rec with p := rec.p + tr.offset } moved rec.normal)
  | none => none

/-- The `FlipFace` adapter of `flip_face.rs`: delegate the hit and negate
`front_face` on the resulting record. -/
def flipFaceHit {M : Type} (inner : Ray → ℚ → ℚ → Option (HitRec M))
    (r : Ray) (t_min t_max : ℚ) : Option (HitRec M) :=
  match inner r t_min t_max with
  | some hr => some { hr with front_face := !hr.front_face }
  | none => none

/-- The `RotateY` wrapper of `rotate.rs`, the inner hittable modelled by its
`hit` function; `sinTheta` and `cosTheta` stand for the sine and cosine of
the rotation angle. -/
structure RotateYM (M : Type) where
  innerHit : Ray → ℚ → ℚ → Option (HitRec M)
  sinTheta : ℚ
  cosTheta : ℚ

/-- The rotated ray built at the top of `RotateY::hit`: only the x and z
components of the origin and the direction change. -/
def RotateYM.rotatedRay {M : Type} (ro : RotateYM M) (r : Ray) : Ray :=
  ⟨⟨ro.cosTheta * r.orig.x - ro.sinTheta * r.orig.z, r.orig.y,
    ro.sinTheta * r.orig.x + ro.cosTheta * r.orig.z⟩,
   ⟨ro.cosTheta * r.dir.x - ro.sinTheta * r.dir.z, r.dir.y,
    ro.sinTheta * r.dir.x + ro.cosTheta * r.dir.z⟩,
   r.time⟩

/-- `RotateY::hit`: rotate the ray, delegate to the inner hittable, rotate
the hit point and the normal back, then run `set_face_normal` against the
rotated ray. -/
def RotateYM.hit {M : Type} (ro : RotateYM M) (r : Ray) (t_min t_max : ℚ) :
    Option (HitRec M) :=
  let rotated := ro.rotatedRay r
  match ro.innerHit rotated t_min t_max with
  | some hr =>
    let p : Vec3 := ⟨ro.cosTheta * hr.p.x + ro.sinTheta * hr.p.z, hr.p.y,
      -ro.sinTheta * hr.p.x + ro.cosTheta * hr.p.z⟩
    let normal : Vec3 :=
      ⟨ro.cosTheta * hr.normal.x + ro.sinTheta * hr.normal.z, hr.normal.y,
       -ro.sinTheta * hr.normal.x + ro.cosTheta * hr.normal.z⟩
    some (setFaceNormal { hr with p := p } rotated normal)
  | none => none

/-- The closest-hit scan of `HittableList::hit` over hittables modelled by
their `hit` functions: `closest` is `closest_so_far` of the source and
`best` the best record found so far. -/
def hlistHitGo {M : Type} (r : Ray) (t_min : ℚ) :
    List (Ray → ℚ → ℚ → Option (HitRec M)) → ℚ → Option (HitRec M) →
      Option (HitRec M)
  | [], _, best => best
  | f :: rest, closest, best =>
    match f r t_min closest with
    | some hr => hlistHitGo r t_min rest hr.t (some hr)
    | none => hlistHitGo r t_min rest closest best

/-- `HittableList::hit` over a list of hit functions: the scan starts from
`closest_so_far = t_max` with no record found. -/
def hlistHit {M : Type} (objs : List (Ray → ℚ → ℚ → Option (HitRec M)))
    (r : Ray) (t_min t_max : ℚ) : Option (HitRec M) :=
  hlistHitGo r t_min objs t_max none

/-- The six sides built by `BoxInst::from(p0, p1, mat)`: the far rect of
each axis pair directly, the near one behind a `FlipFace` adapter. -/
def boxSides {M : Type} (p0 p1 : Vec3) (mp : M) :
    List (Ray → ℚ → ℚ → Option (HitRec M)) :=
  [XYRect.hit ⟨p0.x, p1.x, p0.y, p1.y, p1.z, mp⟩,
   flipFaceHit (XYRect.hit ⟨p0.x, p1.x, p0.y, p1.y, p0.z, mp⟩),
   XZRect.hit ⟨p0.x, p1.x, p0.z, p1.z, p1.y, mp⟩,
   flipFaceHit (XZRect.hit ⟨p0.x, p1.x, p0.z, p1.z, p0.y, mp⟩),
   YZRect.hit ⟨p0.y, p1.y, p0.z, p1.z, p1.x, mp⟩,
   flipFaceHit (YZRect.hit ⟨p0.y, p1.y, p0.z, p1.z, p0.x, mp⟩)]

/-- `BoxInst::hit`: delegate to the `HittableList` scan over the six
sides. -/
def boxInstHit {M : Type} (p0 p1 : Vec3) (mp : M) (r : Ray)
    (t_min t_max : ℚ) : Option (HitRec M) :=
  hlistHit (boxSides p0 p1 mp) r t_min t_max

/-- A hit function whose returned parameter always lies in the closed query
interval with the hit point on the ray. -/
def hitInClosed {M : Type} (hf : Ray → ℚ → ℚ → Option (HitRec M)) : Prop :=
  ∀ (r : Ray) (a b : ℚ) (rc : HitRec M), hf r a b = some rc →
    a ≤ rc.t ∧ rc.t ≤ b ∧ rc.p = r.at rc.t

/-- The `ConstantMedium` of `volume/constant_medium.rs`, the **convex**
boundary modelled by its `hit` function called with upper bound `+∞`:
`boundaryHit none` is `boundary.hit(r, −∞, +∞)` and `boundaryHit (some a)`
is `boundary.hit(r, a, +∞)`.  `phase` models the isotropic phase-function
material built over the texture of the medium, and `negInvDensity = −1/density`. -/
structure ConstantMediumM (M : Type) where
  boundaryHit : Option ℚ → Option (HitRec Unit)
  phase : M
  negInvDensity : ℚ

/-- `ConstantMedium::hit`.  `lnU` stands for `f64::ln` of the uniform sample
(so `hit_distance = neg_inv_density * lnU`) and `rayLength` for
`r.direction().length()`.  Two boundary probes, the clamps of the entry and
exit parameters to `[t_min, t_max]`, the `t1 ≥ t2` rejection, the clamp of
the entry to 0, the free-path rejection and the final record, in the
order of the source. -/
def ConstantMediumM.hit {M : Type} (cm : ConstantMediumM M)
    (lnU rayLength : ℚ) (r : Ray) (t_min t_max : ℚ) : Option (HitRec M) :=
  match cm.boundaryHit none with
  | none => none
  | some rec1 =>
    match cm.boundaryHit (some (rec1.t + 1/100000)) with
    | none => none
    | some rec2 =>
      let t1 := if rec1.t < t_min then t_min else rec1.t
      let t2 := if rec2.t > t_max then t_max else rec2.t
      if t1 ≥ t2 then none
      else
        let t1c := if t1 < 0 then 0 else t1
        let dist := (t2 - t1c) * rayLength
        let hitDist := cm.negInvDensity * lnU
        if hitDist > dist then none
        else
          let t := t1c + hitDist / rayLength
          some ⟨r.at t, ⟨1, 0, 0⟩, cm.phase, t, rec1.u, rec1.v, true⟩

/-- The reading of `ConstantMedium::hit` taken by the claim, for comparison: both
clamps of the entry parameter (`max(t1, t_min)` and then `max(t1, 0)`) are
applied **before** the single `t1 ≥ t2` rejection; rejection of a free path
longer than the remaining span; otherwise a hit at `t1 + d/|direction|`
whose material is the phase function. -/
def ConstantMediumM.hitSpec {M : Type} (cm : ConstantMediumM M)
    (lnU rayLength : ℚ) (r : Ray) (t_min t_max : ℚ) : Option (HitRec M) :=
  match cm.boundaryHit none with
  | none => none
  | some rec1 =>
    match cm.boundaryHit (some (rec1.t + 1/100000)) with
    | none => none
    | some rec2 =>
      let t1 := Max.max (Max.max rec1.t t_min) 0
      let t2 := Min.min rec2.t t_max
      if t1 ≥ t2 then none
      else
        let dist := (t2 - t1) * rayLength
        let hitDist := cm.negInvDensity * lnU
        if hitDist > dist then none
        else
          let t := t1 + hitDist / rayLength
          some ⟨r.at t, ⟨1, 0, 0⟩, cm.phase, t, rec1.u, rec1.v, true⟩

/-- Outcome of a material scattering (`ScatterRecord`). -/
structure ScatterRec where
  attenuation : Vec3
  scattered : Ray

/-- A material, modelled by its two polymorphic operations
(`Material::emitted` and `Material::scatter`). -/
structure MatFn where
  emitted : ℚ → ℚ → Vec3 → Vec3
  scatter : Ray → HitRec Unit → Option ScatterRec

/-- A world, modelled by its `Hittable::hit` operation; the upper interval
bound is a `QInf` because `ray_color` intersects up to `f64::INFINITY`.
The returned pair carries the record and the material behind its
`mat_ptr`. -/
def WorldFn : Type := Ray → ℚ → QInf → Option (HitRec Unit × MatFn)

/-- The background setting of the renderer (`renderer.rs`,
`BackgroundColor`). -/
inductive BackgroundQ where
  | solid (color : Vec3)
  | linearInterp (fromC toC : Vec3)

/-- `Renderer::linear_blend`, with `unitY` standing for
`ray.direction().unit_vector().y()` (the normalization divides by a square
root, which the rational model takes as an oracle): blend factor
`t = (unitY + 1)/2` between the two colors. -/
def linearBlend (unitY : Ray → ℚ) (r : Ray) (fromC toC : Vec3) : Vec3 :=
  let t := 1/2 * (unitY r + 1)
  (1 - t) • fromC + t • toC

/-- The recursive integrator `Renderer::ray_color`: black at depth 0;
otherwise intersect the world over `(0.001, +∞)`; on a miss sample the
background; on a hit add the emitted color and, when the material scatters,
the attenuated color of the scattered ray one depth lower. -/
def rayColor (unitY : Ray → ℚ) (bg : BackgroundQ) (world : WorldFn) :
    Ray → ℕ → Vec3
  | _, 0 => 0
  | r, depth + 1 =>
    match world r (1/1000) ⊤ with
    | some (rec, m) =>
      let emitted := m.emitted rec.u rec.v rec.p
      match m.scatter r rec with
      | some scat =>
        emitted + scat.attenuation * rayColor unitY bg world scat.scattered depth
      | none => emitted
    | none =>
      match bg with
      | .solid c => c
      | .linearInterp fromC toC => linearBlend unitY r fromC toC

/-- The scene selector of `main.rs` (`Scene`). -/
inductive SceneKind where
  | randomSpheres
  | cornellBox
  | cornellSmokeBoxes
  | earth
  | perlinSpheres
  | finalScene
deriving DecidableEq

/-- The ray bounce depth `main` passes to the render job, one match arm per
scene as in `main.rs`. -/
def mainRayBounceDepth : SceneKind → ℕ
  | .randomSpheres => 50
  | .cornellBox => 50
  | .cornellSmokeBoxes => 50
  | .earth => 50
  | .perlinSpheres => 50
  | .finalScene => 50

/-- The derived camera state of `common/camera.rs` that `get_ray` reads. -/
structure CameraQ where
  origin : Vec3
  lower_left_corner : Vec3
  horizontal : Vec3
  vertical : Vec3
  u : Vec3
  v : Vec3
  lens_radius : ℚ
deriving DecidableEq

/-- `Camera::get_ray (s, t)`, with the random lens sample
`rd = lens_radius * random_in_unit_disk()` and the random shutter `time`
passed in as parameters: offset by the lens sample in the `(u, v)` basis,
aim at `lower_left_corner + s·horizontal + t·vertical`. -/
def getRay (cam : CameraQ) (rd : Vec3) (time : ℚ) (s t : ℚ) : Ray :=
  let offset := rd.x • cam.u + rd.y • cam.v
  ⟨cam.origin + offset,
   cam.lower_left_corner + s • cam.horizontal + t • cam.vertical
     - cam.origin - offset, time⟩

/-- The vertical sampling coordinate of `Renderer::render_scanline`:
`v = (row + jitter) / (image_height − 1)` for the scanline `row`. -/
def sampleV (row : ℕ) (imageHeight : ℕ) (jitter : ℚ) : ℚ :=
  ((row : ℚ) + jitter) / ((imageHeight : ℚ) - 1)

/-- One slice assignment of the assembly loop of `Renderer::render`: the
received row colors overwrite `image[start .. start + row.length]`. -/
def placeRow (img : List Vec3) (start : ℕ) (colors : List Vec3) : List Vec3 :=
  img.take start ++ colors ++ img.drop (start + colors.length)

/-- The assembly loop of `Renderer::render`: an image buffer of
`width * height` default colors, each received scanline `row` written at
`ridx = row * width`.  The channel delivers rows in an arbitrary completion
order, here an arbitrary list `order` of row indices. -/
def renderAssemble (width : ℕ) (scanline : ℕ → List Vec3)
    (order : List ℕ) (height : ℕ) : List Vec3 :=
  order.foldl (fun img row => placeRow img (row * width) (scanline row))
    (List.replicate (width * height) 0)

/-- The buffer indices of `ppm::write_file` in the order the pixel triples
are written: for file row `r` from 0 and column `c`, buffer index
`(height − 1 − r) * width + c`. -/
def ppmIndices (width height : ℕ) : List ℕ :=
  (List.range height).flatMap fun r =>
    (List.range width).map fun c => (height - 1 - r) * width + c

/-- Containment of one box in another, componentwise. -/
def Aabb.containsBox (outer inner : Aabb) : Prop :=
  outer.min.x ≤ inner.min.x ∧ outer.min.y ≤ inner.min.y ∧
  outer.min.z ≤ inner.min.z ∧ inner.max.x ≤ outer.max.x ∧
  inner.max.y ≤ outer.max.y ∧ inner.max.z ≤ outer.max.z

/-- A point strictly inside a box on every axis. -/
def strictlyInside (pt : Vec3) (bx : Aabb) : Prop :=
  bx.min.x < pt.x ∧ pt.x < bx.max.x ∧ bx.min.y < pt.y ∧ pt.y < bx.max.y ∧
  bx.min.z < pt.z ∧ pt.z < bx.max.z

/-- An abstract primitive for the BVH-versus-list comparison: the
`Hittable` is summarized by the list of candidate hit parameters it admits
along a full ray (sorted ascending for the concrete primitives), its
bounding box, and an identity tag standing for the primitive / its
material pointer. -/
structure APrim where
  hits : Ray → List ℚ
  box : Aabb
  mid : ℕ

/-- `hit` of an abstract primitive: the first candidate inside the closed
query interval (the closed acceptance is that of the axis rects; the
sphere accepts on the open interval, which agrees except exactly at the
interval ends). -/
def APrim.hit (p : APrim) (r : Ray) (a b : ℚ) : Option (HitRec ℕ) :=
  match (p.hits r).find? (fun τ => decide (a ≤ τ) && decide (τ ≤ b)) with
  | some τ => some ⟨r.at τ, ⟨0, 0, 1⟩, p.mid, τ, 0, 0, true⟩
  | none => none

/-- The candidate list of an `XYRect` along a full ray: the single z-slab
solution when it falls inside the rectangle bounds. -/
def rectCandidates {M : Type} (rect : XYRect M) (r : Ray) : List ℚ :=
  let t := (rect.k - r.orig.z) / r.dir.z
  let x := r.orig.x + t * r.dir.x
  let y := r.orig.y + t * r.dir.y
  if x < rect.x0 ∨ x > rect.x1 ∨ y < rect.y0 ∨ y > rect.y1 then [] else [t]

/-- An `XYRect` as an abstract primitive. -/
def rectAPrim (rect : XYRect ℕ) : APrim :=
  ⟨rectCandidates rect, rect.boundingBox, rect.mp⟩

/-- `HittableList::hit` body: iterate, keeping the closest hit so far and
shrinking the upper interval bound to its `t`. -/
def listHitGo (r : Ray) (t_min : ℚ) :
    List APrim → Option (HitRec ℕ) → ℚ → Option (HitRec ℕ)
  | [], best, _ => best
  | p :: rest, best, closest =>
    match p.hit r t_min closest with
    | some rec => listHitGo r t_min rest (some rec) rec.t
    | none => listHitGo r t_min rest best closest

/-- `HittableList::hit`: linear closest-hit scan starting from
`closest_so_far = t_max`. -/
def hittableListHit (ps : List APrim) (r : Ray) (t_min t_max : ℚ) :
    Option (HitRec ℕ) :=
  listHitGo r t_min ps none t_max

/-- The BVH shape of `bvh_node.rs`: a `BvhNode` holds two child hittables
(either nested nodes or primitives) and a bounding box. -/
inductive BvhT (P : Type) where
  | prim (p : P)
  | node (bbox : Aabb) (left : BvhT P) (right : BvhT P)

/-- `Hittable::bounding_box` of a BVH child: a node answers its stored box,
a primitive its own box. -/
def bvhBoundingBox {P : Type} (boxOf : P → Option Aabb) :
    BvhT P → Option Aabb
  | .prim p => boxOf p
  | .node bx _ _ => some bx

/-- The tail of `BvhNode::split_volumes`: query the bounding
boxes, `panic!` (here `none`) if either is absent, and store their
surround as the node box. -/
def mkNode {P : Type} (boxOf : P → Option Aabb) (l r : BvhT P) :
    Option (BvhT P) :=
  match bvhBoundingBox boxOf l, bvhBoundingBox boxOf r with
  | some bl, some br => some (.node (bl.surrounding br) l r)
  | _, _ => none

/-- The sort step of `BvhNode::split_volumes`
(`objects.sort_unstable_by(box_compare)`): ascending by the min corner of
the bounding box on the split axis.  Only called once every member is known
to have a box, so the `getD` default is never read. -/
def sortByBoxMin {P : Type} (boxOf : P → Option Aabb) (axis : Fin 3)
    (objects : List P) : List P :=
  objects.mergeSort fun a b =>
    decide ((((boxOf a).map fun bx => bx.min.comp axis).getD 0) ≤
      (((boxOf b).map fun bx => bx.min.comp axis).getD 0))

/-- `BvhNode::split_volumes`.  The randomly drawn split axis is abstracted
by `axisOf`, a function of the sublist being split, so a theorem over all
`axisOf` covers every draw.  One element: the element becomes both
children.  Two elements: ordered by `box_compare` (strictly smaller min
corner on the split axis first; the comparison panics, here `none`, when a
box is absent).  More: sort by min corner on the split axis (`none` when a
box is absent, as the sort comparator panics), split at the median and
recurse.  Every case ends by surrounding the child boxes.  The source
recurses forever on an empty list; the model returns `none` there. -/
def splitVolumes {P : Type} (boxOf : P → Option Aabb)
    (axisOf : List P → Fin 3) : List P → Option (BvhT P)
  | [] => none
  | [p] => mkNode boxOf (.prim p) (.prim p)
  | [p, q] =>
    match boxOf p, boxOf q with
    | some bp, some bq =>
      if bp.min.comp (axisOf [p, q]) < bq.min.comp (axisOf [p, q]) then
        mkNode boxOf (.prim p) (.prim q)
      else
        mkNode boxOf (.prim q) (.prim p)
    | _, _ => none
  | p :: q :: s :: rest =>
    let objects := p :: q :: s :: rest
    if objects.any (fun a => (boxOf a).isNone) then none
    else
      let sorted := sortByBoxMin boxOf (axisOf objects) objects
      match splitVolumes boxOf axisOf (sorted.take (sorted.length / 2)),
            splitVolumes boxOf axisOf (sorted.drop (sorted.length / 2)) with
      | some l, some r => mkNode boxOf l r
      | _, _ => none
termination_by l => l.length
decreasing_by
  all_goals
    simp [List.length_take, List.length_drop, sortByBoxMin,
      List.length_mergeSort]
  all_goals omega

/-- The primitives beneath a BVH child, in tree order. -/
def flattenT {P : Type} : BvhT P → List P
  | .prim p => [p]
  | .node _ l r => flattenT l ++ flattenT r

/-- Checks that the stored box of every node is the surround of the boxes
of its two children. -/
def surroundOk {P : Type} (boxOf : P → Option Aabb) : BvhT P → Bool
  | .prim _ => true
  | .node bx l r =>
    (match bvhBoundingBox boxOf l, bvhBoundingBox boxOf r with
     | some bl, some br => decide (bx = bl.surrounding br)
     | _, _ => false)
    && surroundOk boxOf l && surroundOk boxOf r

/-- `BvhNode::hit`: answer `None` when the slab test misses the node box;
otherwise recurse left over the full interval, recurse right with the
upper bound shrunk to the `t` of the left hit when there was one, and prefer
the right result when both hit. -/
def bvhHit : BvhT APrim → Ray → ℚ → ℚ → Option (HitRec ℕ)
  | .prim p, r, a, b => p.hit r a b
  | .node bx l rt, r, a, b =>
    match aabbHit bx r a b with
    | none => none
    | some _ =>
      let hitL := bvhHit l r a b
      let hitR :=
        match hitL with
        | some rec => bvhHit rt r a rec.t
        | none => bvhHit rt r a b
      match hitR with
      | some _ => hitR
      | none => hitL

/-- Minimum of two optional parameters, absent values ignored. -/
def omin : Option ℚ → Option ℚ → Option ℚ
  | none, o => o
  | some x, none => some x
  | some x, some y => some (Min.min x y)

/-- Minimum element of a list, `none` when empty. -/
def listMin (l : List ℚ) : Option ℚ :=
  l.foldr (fun x acc => omin (some x) acc) none

/-- The candidates of one primitive falling in the closed interval. -/
def candsIn (p : APrim) (r : Ray) (a b : ℚ) : List ℚ :=
  (p.hits r).filter fun τ => decide (a ≤ τ) && decide (τ ≤ b)

/-- The closest candidate over a collection in the closed interval: the
reference value both the linear scan and the BVH traversal are compared
against. -/
def minCand (ps : List APrim) (r : Ray) (a b : ℚ) : Option ℚ :=
  listMin (ps.flatMap fun p => candsIn p r a b)

/-- The `bounding_box` answer of an abstract primitive: always present. -/
def aprimBox (p : APrim) : Option Aabb := some p.box

/-- `ConstantMedium::from`: precomputes `neg_inv_density = −1/density` and
wraps the texture in the isotropic phase function (here the tag `phase`). -/
def constantMediumFrom {M : Type} (b : Option ℚ → Option (HitRec Unit))
    (d : ℚ) (phase : M) : ConstantMediumM M :=
  ⟨b, phase, -1 / d⟩

/-!  Theorems.  One main theorem per claim, preceded by the helper lemmas
the proofs share. -/

theorem Vec3.add_x (a b : Vec3) : (a + b).x = a.x + b.x := rfl

theorem Vec3.add_y (a b : Vec3) : (a + b).y = a.y + b.y := rfl

theorem Vec3.add_z (a b : Vec3) : (a + b).z = a.z + b.z := rfl

theorem Vec3.sub_x (a b : Vec3) : (a - b).x = a.x - b.x := rfl

theorem Vec3.sub_y (a b : Vec3) : (a - b).y = a.y - b.y := rfl

theorem Vec3.sub_z (a b : Vec3) : (a - b).z = a.z - b.z := rfl

theorem Vec3.smul_x (s : ℚ) (a : Vec3) : (s • a).x = s * a.x := rfl

theorem Vec3.smul_y (s : ℚ) (a : Vec3) : (s • a).y = s * a.y := rfl

theorem Vec3.smul_z (s : ℚ) (a : Vec3) : (s • a).z = s * a.z := rfl

theorem Vec3.mk_add (a b c d e f : ℚ) :
    (⟨a, b, c⟩ + ⟨d, e, f⟩ : Vec3) = ⟨a + d, b + e, c + f⟩ := rfl

theorem Vec3.mk_sub (a b c d e f : ℚ) :
    (⟨a, b, c⟩ - ⟨d, e, f⟩ : Vec3) = ⟨a - d, b - e, c - f⟩ := rfl

theorem Vec3.mk_neg (a b c : ℚ) : (-(⟨a, b, c⟩ : Vec3)) = ⟨-a, -b, -c⟩ := rfl

theorem Vec3.mk_mul (a b c d e f : ℚ) :
    ((⟨a, b, c⟩ : Vec3) * ⟨d, e, f⟩) = ⟨a * d, b * e, c * f⟩ := rfl

theorem Vec3.mk_smul (s a b c : ℚ) :
    (s • (⟨a, b, c⟩ : Vec3)) = ⟨s * a, s * b, s * c⟩ := rfl

theorem Vec3.mk_dot (a b c d e f : ℚ) :
    Vec3.dot ⟨a, b, c⟩ ⟨d, e, f⟩ = a * d + b * e + c * f := rfl

/-- C9: the default `Aabb` (min corners `+∞`, max corners `−∞`) is a left
and right identity of `surrounding_box`, and `surrounding_box` is
commutative. -/
theorem C9_default_box_identity :
    (∀ B : EAabb, surroundingE defaultEAabb B = B ∧
      surroundingE B defaultEAabb = B) ∧
    (∀ A B : EAabb, surroundingE A B = surroundingE B A) := by
  refine ⟨fun B => ⟨?_, ?_⟩, fun A B => ?_⟩
  · rcases B with ⟨⟨a, b, c⟩, ⟨d, e, f⟩⟩
    simp [surroundingE, defaultEAabb, min_eq_right le_top, max_eq_right bot_le]
  · rcases B with ⟨⟨a, b, c⟩, ⟨d, e, f⟩⟩
    simp [surroundingE, defaultEAabb, min_eq_left le_top, max_eq_left bot_le]
  · simp [surroundingE, min_comm, max_comm]

/-- C10: the bounding box of a `HittableList` is `None` exactly for the
empty list; any non-empty list gets `Some` box, and a member without a
bounding box is silently skipped: it is dropped from the surround instead
of making the whole result `None`. -/
theorem C10_list_bounding_box_skips_boxless :
    (hittableListBoundingBox [] = none) ∧
    (∀ bs : List (Option EAabb), bs ≠ [] →
      (hittableListBoundingBox bs).isSome = true) ∧
    (∀ a b : List (Option EAabb),
      hittableListBoundingBox (a ++ none :: b) =
        some (((a ++ b).filterMap id).foldl surroundingE defaultEAabb)) := by
  refine ⟨rfl, fun bs h => ?_, fun a b => ?_⟩
  · simp [hittableListBoundingBox, h]
  · have hne : a ++ none :: b ≠ [] := by simp
    simp [hittableListBoundingBox, hne]

/-- Closed instance of the C10 theorem: a one-element list whose member has
no box still gets `Some` bounding box (the default box), and the boxless
member is skipped. -/
theorem C10_witness :
    (hittableListBoundingBox [none, some defaultEAabb]).isSome = true ∧
    hittableListBoundingBox ([] ++ none :: [some defaultEAabb]) =
      some ((([] ++ [some defaultEAabb]).filterMap id).foldl surroundingE
        defaultEAabb) :=
  ⟨C10_list_bounding_box_skips_boxless.2.1 [none, some defaultEAabb] (by simp),
   C10_list_bounding_box_skips_boxless.2.2 [] [some defaultEAabb]⟩

theorem clamp_nonneg (s hi : ℚ) (h : 0 ≤ hi) : 0 ≤ clamp s 0 hi := by
  unfold clamp
  split_ifs with h1 h2 <;> linarith

theorem clamp_le (s hi : ℚ) (h : 0 ≤ hi) : clamp s 0 hi ≤ hi := by
  unfold clamp
  split_ifs with h1 h2 <;> linarith

theorem f64AsU8_of_lt_256 (q : ℚ) (h0 : 0 ≤ q) (h1 : q < 256) :
    f64AsU8 q = (Int.floor q).toNat ∧ f64AsU8 q ≤ 255 := by
  unfold f64AsU8
  split_ifs with ha hb
  · have hq : q = 0 := le_antisymm ha h0
    subst hq
    simp
  · have hlo : (255 : ℤ) ≤ Int.floor q := Int.le_floor.mpr (by exact_mod_cast hb)
    have hhi : Int.floor q < (256 : ℤ) := Int.floor_lt.mpr (by exact_mod_cast h1)
    have hfl : Int.floor q = 255 := by omega
    simp [hfl]
  · push_neg at hb
    have hhi : Int.floor q < (255 : ℤ) := Int.floor_lt.mpr (by exact_mod_cast hb)
    have hlo : (0 : ℤ) ≤ Int.floor q := Int.le_floor.mpr (by exact_mod_cast h0)
    exact ⟨rfl, by omega⟩

/-- C7: for an accumulated color with non-negative components and at least
one sample, `multi_sample` computes each channel as
`256 · clamp(√(channel / N), 0, 0.999)` (with `sqrtFn` standing for
`f64::sqrt`), and the byte cast applied when writing the image truncates
each channel to an integer in `[0, 255]` (the cast equals the floor, no
saturation occurs). -/
theorem C7_tonemap_bytes (sqrtFn : ℚ → ℚ) (pixel : Vec3) (samples : ℕ)
    (hx : 0 ≤ pixel.x) (hy : 0 ≤ pixel.y) (hz : 0 ≤ pixel.z)
    (hN : 1 ≤ samples) :
    multiSample sqrtFn pixel samples =
      ⟨256 * clamp (sqrtFn (pixel.x / (samples : ℚ))) 0 (999/1000),
       256 * clamp (sqrtFn (pixel.y / (samples : ℚ))) 0 (999/1000),
       256 * clamp (sqrtFn (pixel.z / (samples : ℚ))) 0 (999/1000)⟩ ∧
    (f64AsU8 (multiSample sqrtFn pixel samples).x =
        (Int.floor (multiSample sqrtFn pixel samples).x).toNat ∧
      f64AsU8 (multiSample sqrtFn pixel samples).x ≤ 255) ∧
    (f64AsU8 (multiSample sqrtFn pixel samples).y =
        (Int.floor (multiSample sqrtFn pixel samples).y).toNat ∧
      f64AsU8 (multiSample sqrtFn pixel samples).y ≤ 255) ∧
    (f64AsU8 (multiSample sqrtFn pixel samples).z =
        (Int.floor (multiSample sqrtFn pixel samples).z).toNat ∧
      f64AsU8 (multiSample sqrtFn pixel samples).z ≤ 255) := by
  have hchan : ∀ s : ℚ, 0 ≤ 256 * clamp s 0 (999/1000) ∧
      256 * clamp s 0 (999/1000) < 256 := by
    intro s
    have h1 := clamp_nonneg s (999/1000) (by norm_num)
    have h2 := clamp_le s (999/1000) (by norm_num)
    constructor <;> nlinarith
  have hform : multiSample sqrtFn pixel samples =
      ⟨256 * clamp (sqrtFn (pixel.x / (samples : ℚ))) 0 (999/1000),
       256 * clamp (sqrtFn (pixel.y / (samples : ℚ))) 0 (999/1000),
       256 * clamp (sqrtFn (pixel.z / (samples : ℚ))) 0 (999/1000)⟩ := by
    unfold multiSample
    simp [one_div, inv_mul_eq_div]
  refine ⟨hform, ?_, ?_, ?_⟩ <;>
    · rw [hform]
      exact f64AsU8_of_lt_256 _ (hchan _).1 (hchan _).2

/-- Closed instance of the C7 theorem at the accumulated color `(4, 1, 0)`
with 4 samples and the exact square root on the sampled values. -/
theorem C7_witness :
    multiSample (fun q => if q = 1 then 1 else if q = 1/4 then 1/2 else 0)
        ⟨4, 1, 0⟩ 4 =
      ⟨256 * clamp 1 0 (999/1000), 256 * clamp (1/2) 0 (999/1000),
       256 * clamp 0 0 (999/1000)⟩ ∧
    f64AsU8 (multiSample (fun q => if q = 1 then 1 else if q = 1/4 then 1/2 else 0)
        ⟨4, 1, 0⟩ 4).x ≤ 255 := by
  have h := C7_tonemap_bytes
    (fun q => if q = 1 then 1 else if q = 1/4 then 1/2 else 0)
    ⟨4, 1, 0⟩ 4 (by norm_num) (by norm_num) (by norm_num) (by norm_num)
  refine ⟨?_, h.2.1.2⟩
  rw [h.1]
  norm_num

theorem ifLtMax (x y : ℚ) : (if x < y then y else x) = Max.max x y := by
  rcases lt_or_le x y with h | h
  · simp [h, max_eq_right (le_of_lt h)]
  · simp [not_lt.mpr h, max_eq_left h]

theorem ifGtMin (x y : ℚ) : (if x > y then y else x) = Min.min x y := by
  rcases lt_or_le y x with h | h
  · simp [h, min_eq_right (le_of_lt h)]
  · simp [not_lt.mpr h, min_eq_left h]

theorem Vec3.sub_add_add_cancel (a b c : Vec3) : a - b + c + b = a + c := by
  cases a; cases b; cases c
  simp only [Vec3.mk_sub, Vec3.mk_add, Vec3.mk.injEq]
  refine ⟨by ring, by ring, by ring⟩

theorem xyRect_hit_closed {M : Type} (rect : XYRect M) :
    hitInClosed rect.hit := by
  intro r a b rc h
  simp only [XYRect.hit] at h
  split_ifs at h with h1 h2
  rw [Option.some.injEq] at h
  subst h
  push_neg at h1
  exact ⟨by simpa [withFaceNormal] using h1.1,
    by simpa [withFaceNormal] using h1.2, by simp [withFaceNormal]⟩

theorem xzRect_hit_closed {M : Type} (rect : XZRect M) :
    hitInClosed rect.hit := by
  intro r a b rc h
  simp only [XZRect.hit] at h
  split_ifs at h with h1 h2
  rw [Option.some.injEq] at h
  subst h
  push_neg at h1
  exact ⟨by simpa [withFaceNormal] using h1.1,
    by simpa [withFaceNormal] using h1.2, by simp [withFaceNormal]⟩

theorem yzRect_hit_closed {M : Type} (rect : YZRect M) :
    hitInClosed rect.hit := by
  intro r a b rc h
  simp only [YZRect.hit] at h
  split_ifs at h with h1 h2
  rw [Option.some.injEq] at h
  subst h
  push_neg at h1
  exact ⟨by simpa [withFaceNormal] using h1.1,
    by simpa [withFaceNormal] using h1.2, by simp [withFaceNormal]⟩

theorem flipFaceHit_closed {M : Type}
    (inner : Ray → ℚ → ℚ → Option (HitRec M)) (hin : hitInClosed inner) :
    hitInClosed (flipFaceHit inner) := by
  intro r a b rc h
  cases hi : inner r a b with
  | none => simp [flipFaceHit, hi] at h
  | some hr =>
    simp only [flipFaceHit, hi] at h
    rw [Option.some.injEq] at h
    subst h
    have hhr := hin r a b hr hi
    exact ⟨hhr.1, hhr.2.1, hhr.2.2⟩

theorem hlistHitGo_closed {M : Type} (r : Ray) (a B : ℚ)
    (objs : List (Ray → ℚ → ℚ → Option (HitRec M))) :
    (∀ f ∈ objs, hitInClosed f) →
    ∀ (closest : ℚ) (best : Option (HitRec M)), closest ≤ B →
    (∀ rc0 : HitRec M, best = some rc0 →
      a ≤ rc0.t ∧ rc0.t ≤ B ∧ rc0.p = r.at rc0.t) →
    ∀ rc : HitRec M, hlistHitGo r a objs closest best = some rc →
      a ≤ rc.t ∧ rc.t ≤ B ∧ rc.p = r.at rc.t := by
  induction objs with
  | nil =>
    intro _ closest best _ hbest rc h
    exact hbest rc (by simpa [hlistHitGo] using h)
  | cons f rest ih =>
    intro hobjs closest best hcb hbest rc h
    have hf : hitInClosed f := hobjs f (List.mem_cons_self f rest)
    have hrest : ∀ g ∈ rest, hitInClosed g :=
      fun g hg => hobjs g (List.mem_cons_of_mem f hg)
    simp only [hlistHitGo] at h
    cases hfi : f r a closest with
    | none =>
      rw [hfi] at h
      exact ih hrest closest best hcb hbest rc h
    | some hr =>
      rw [hfi] at h
      have hhr := hf r a closest hr hfi
      refine ih hrest hr.t (some hr) (le_trans hhr.2.1 hcb) ?_ rc h
      intro rc0 h0
      rw [Option.some.injEq] at h0
      subst h0
      exact ⟨hhr.1, le_trans hhr.2.1 hcb, hhr.2.2⟩

theorem hlistHit_closed {M : Type}
    (objs : List (Ray → ℚ → ℚ → Option (HitRec M)))
    (hobjs : ∀ f ∈ objs, hitInClosed f) : hitInClosed (hlistHit objs) := by
  intro r a b rc h
  exact hlistHitGo_closed r a b objs hobjs b none le_rfl
    (fun rc0 h0 => Option.noConfusion h0) rc h

theorem boxSides_closed {M : Type} (p0 p1 : Vec3) (mp : M) :
    ∀ f ∈ boxSides p0 p1 mp, hitInClosed f := by
  intro f hf
  simp only [boxSides, List.mem_cons, List.not_mem_nil, or_false] at hf
  rcases hf with h | h | h | h | h | h <;> subst h
  · exact xyRect_hit_closed _
  · exact flipFaceHit_closed _ (xyRect_hit_closed _)
  · exact xzRect_hit_closed _
  · exact flipFaceHit_closed _ (xzRect_hit_closed _)
  · exact yzRect_hit_closed _
  · exact flipFaceHit_closed _ (yzRect_hit_closed _)

/-- C3 (amended): whenever a hit is returned the hit point equals `r.at(t)`
exactly (the rational model has no rounding, so the `1e-9` bound of the
claim holds with slack), but the interval discipline varies by variant:
the three axis rects accept the **closed** `[t_min, t_max]` (their tests
reject only strictly outside values), and so does `BoxInst`, built from
six rect sides behind `FlipFace` adapters and the `HittableList` scan;
`Sphere` and `MovingSphere` accept only the open `(t_min, t_max)`;
`ConstantMedium` (positive density, uniform sample in `(0, 1)`, ray of
positive length) returns a parameter in the half-open `(t_min, t_max]`;
the wrappers `Translate`, `FlipFace` and `RotateY` hand `(t_min, t_max)`
unchanged to the inner hittable and return its parameter unchanged, so
each preserves the interval discipline of what it wraps, and each maps
the hit point back onto the original ray (for `RotateY` whenever
`sin² + cos² = 1`).  The direction hypotheses on the rect clauses keep the
rational model faithful where the source divides by a direction
component. -/
theorem C3_hit_parameter_in_interval :
    (∀ (rect : XYRect Unit) (r : Ray) (t_min t_max : ℚ) (rec : HitRec Unit),
      r.dir.z ≠ 0 → rect.hit r t_min t_max = some rec →
      t_min ≤ rec.t ∧ rec.t ≤ t_max ∧ rec.p = r.at rec.t) ∧
    (∀ (rect : XZRect Unit) (r : Ray) (t_min t_max : ℚ) (rec : HitRec Unit),
      r.dir.y ≠ 0 → rect.hit r t_min t_max = some rec →
      t_min ≤ rec.t ∧ rec.t ≤ t_max ∧ rec.p = r.at rec.t) ∧
    (∀ (rect : YZRect Unit) (r : Ray) (t_min t_max : ℚ) (rec : HitRec Unit),
      r.dir.x ≠ 0 → rect.hit r t_min t_max = some rec →
      t_min ≤ rec.t ∧ rec.t ≤ t_max ∧ rec.p = r.at rec.t) ∧
    (∀ (s : SphereS Unit) (r : Ray) (t_min t_max root : ℚ)
        (rec : HitRec Unit),
      s.hitWithRoot r t_min t_max root = some rec →
      t_min < rec.t ∧ rec.t < t_max ∧ rec.p = r.at rec.t) ∧
    (∀ (s : MovingSphereS Unit) (r : Ray) (t_min t_max root : ℚ)
        (rec : HitRec Unit),
      s.hitWithRoot r t_min t_max root = some rec →
      t_min < rec.t ∧ rec.t < t_max ∧ rec.p = r.at rec.t) ∧
    (∀ (p0 p1 : Vec3) (mp : Unit) (r : Ray) (t_min t_max : ℚ)
        (rec : HitRec Unit),
      boxInstHit p0 p1 mp r t_min t_max = some rec →
      t_min ≤ rec.t ∧ rec.t ≤ t_max ∧ rec.p = r.at rec.t) ∧
    (∀ (cm : ConstantMediumM Unit) (lnU rayLength : ℚ) (r : Ray)
        (t_min t_max : ℚ) (rec : HitRec Unit),
      cm.negInvDensity < 0 → lnU < 0 → 0 < rayLength →
      cm.hit lnU rayLength r t_min t_max = some rec →
      t_min < rec.t ∧ rec.t ≤ t_max ∧ rec.p = r.at rec.t) ∧
    (∀ (tr : TranslateM Unit) (r : Ray) (t_min t_max : ℚ)
        (rec : HitRec Unit),
      tr.hit r t_min t_max = some rec →
      ∃ rec1 : HitRec Unit,
        tr.innerHit ⟨r.orig - tr.offset, r.dir, r.time⟩ t_min t_max =
          some rec1 ∧ rec.t = rec1.t ∧
        (rec1.p = Ray.at ⟨r.orig - tr.offset, r.dir, r.time⟩ rec1.t →
          rec.p = r.at rec.t)) ∧
    (∀ (inner : Ray → ℚ → ℚ → Option (HitRec Unit)) (r : Ray)
        (t_min t_max : ℚ) (rec : HitRec Unit),
      flipFaceHit inner r t_min t_max = some rec →
      ∃ rec1 : HitRec Unit, inner r t_min t_max = some rec1 ∧
        rec.t = rec1.t ∧ rec.p = rec1.p) ∧
    (∀ (ro : RotateYM Unit) (r : Ray) (t_min t_max : ℚ)
        (rec : HitRec Unit),
      ro.sinTheta * ro.sinTheta + ro.cosTheta * ro.cosTheta = 1 →
      ro.hit r t_min t_max = some rec →
      ∃ rec1 : HitRec Unit,
        ro.innerHit (ro.rotatedRay r) t_min t_max = some rec1 ∧
        rec.t = rec1.t ∧
        (rec1.p = (ro.rotatedRay r).at rec1.t → rec.p = r.at rec.t)) := by
  refine ⟨fun rect r t_min t_max rc _ h =>
      xyRect_hit_closed rect r t_min t_max rc h,
    fun rect r t_min t_max rc _ h =>
      xzRect_hit_closed rect r t_min t_max rc h,
    fun rect r t_min t_max rc _ h =>
      yzRect_hit_closed rect r t_min t_max rc h,
    fun s r t_min t_max root rc h => ?_,
    fun s r t_min t_max root rc h => ?_,
    fun p0 p1 mp r t_min t_max rc h =>
      hlistHit_closed (boxSides p0 p1 mp) (boxSides_closed p0 p1 mp)
        r t_min t_max rc h,
    fun cm lnU rayLength r t_min t_max rc hdens hln hlen h => ?_,
    fun tr r t_min t_max rc h => ?_,
    fun inner r t_min t_max rc h => ?_,
    fun ro r t_min t_max rc hsc h => ?_⟩
  · simp only [SphereS.hitWithRoot] at h
    split_ifs at h with h1 h2 h3
    · rw [Option.some.injEq] at h
      subst h
      exact ⟨by simpa [withFaceNormal] using h2.2,
        by simpa [withFaceNormal] using h2.1, by simp [withFaceNormal]⟩
    · rw [Option.some.injEq] at h
      subst h
      exact ⟨by simpa [withFaceNormal] using h3.2,
        by simpa [withFaceNormal] using h3.1, by simp [withFaceNormal]⟩
  · simp only [MovingSphereS.hitWithRoot] at h
    split_ifs at h with h1 h2 h3
    · rw [Option.some.injEq] at h
      subst h
      exact ⟨by simpa [withFaceNormal] using h2.2,
        by simpa [withFaceNormal] using h2.1, by simp [withFaceNormal]⟩
    · rw [Option.some.injEq] at h
      subst h
      exact ⟨by simpa [withFaceNormal] using h3.2,
        by simpa [withFaceNormal] using h3.1, by simp [withFaceNormal]⟩
  · have hpos : 0 < cm.negInvDensity * lnU := mul_pos_of_neg_of_neg hdens hln
    cases hb1 : cm.boundaryHit none with
    | none =>
      simp only [ConstantMediumM.hit, hb1] at h
      try exact Option.noConfusion h
    | some rec1 =>
      cases hb2 : cm.boundaryHit (some (rec1.t + 1/100000)) with
      | none =>
        simp only [ConstantMediumM.hit, hb1, hb2] at h
        try exact Option.noConfusion h
      | some rec2 =>
        simp only [ConstantMediumM.hit, hb1, hb2] at h
        simp only [ifLtMax, ifGtMin] at h
        split_ifs at h with hge hdist
        rw [Option.some.injEq] at h
        subst h
        push_neg at hge hdist
        refine ⟨?_, ?_, rfl⟩
        · have hlo : t_min ≤ Max.max (Max.max rec1.t t_min) 0 :=
            le_trans (le_max_right _ _) (le_max_left _ _)
          have hdiv : 0 < cm.negInvDensity * lnU / rayLength :=
            div_pos hpos hlen
          show t_min < Max.max (Max.max rec1.t t_min) 0 +
            cm.negInvDensity * lnU / rayLength
          linarith
        · have hhi : Min.min rec2.t t_max ≤ t_max := min_le_right _ _
          have hdiv : cm.negInvDensity * lnU / rayLength ≤
              Min.min rec2.t t_max - Max.max (Max.max rec1.t t_min) 0 :=
            (div_le_iff₀ hlen).mpr hdist
          show Max.max (Max.max rec1.t t_min) 0 +
            cm.negInvDensity * lnU / rayLength ≤ t_max
          linarith
  · simp only [TranslateM.hit] at h
    cases hin : tr.innerHit ⟨r.orig - tr.offset, r.dir, r.time⟩
        t_min t_max with
    | none => rw [hin] at h; exact Option.noConfusion h
    | some rec1 =>
      rw [hin] at h
      rw [Option.some.injEq] at h
      subst h
      refine ⟨rec1, rfl, rfl, fun hp => ?_⟩
      show rec1.p + tr.offset = r.at rec1.t
      rw [hp]
      show Ray.at ⟨r.orig - tr.offset, r.dir, r.time⟩ rec1.t + tr.offset =
        r.at rec1.t
      simp only [Ray.at]
      exact Vec3.sub_add_add_cancel r.orig tr.offset (rec1.t • r.dir)
  · simp only [flipFaceHit] at h
    cases hin : inner r t_min t_max with
    | none => rw [hin] at h; exact Option.noConfusion h
    | some rec1 =>
      rw [hin] at h
      rw [Option.some.injEq] at h
      subst h
      exact ⟨rec1, rfl, rfl, rfl⟩
  · obtain ⟨⟨ox, oy, oz⟩, ⟨dx, dy, dz⟩, tm⟩ := r
    simp only [RotateYM.hit] at h
    cases hin : ro.innerHit (ro.rotatedRay ⟨⟨ox, oy, oz⟩, ⟨dx, dy, dz⟩, tm⟩)
        t_min t_max with
    | none => rw [hin] at h; exact Option.noConfusion h
    | some rec1 =>
      rw [hin] at h
      rw [Option.some.injEq] at h
      subst h
      refine ⟨rec1, rfl, rfl, fun hp => ?_⟩
      have hx : rec1.p.x = ro.cosTheta * ox - ro.sinTheta * oz +
          rec1.t * (ro.cosTheta * dx - ro.sinTheta * dz) := by
        rw [hp]; rfl
      have hy : rec1.p.y = oy + rec1.t * dy := by rw [hp]; rfl
      have hz : rec1.p.z = ro.sinTheta * ox + ro.cosTheta * oz +
          rec1.t * (ro.sinTheta * dx + ro.cosTheta * dz) := by
        rw [hp]; rfl
      show (⟨ro.cosTheta * rec1.p.x + ro.sinTheta * rec1.p.z, rec1.p.y,
          -ro.sinTheta * rec1.p.x + ro.cosTheta * rec1.p.z⟩ : Vec3) =
        ⟨ox + rec1.t * dx, oy + rec1.t * dy, oz + rec1.t * dz⟩
      rw [Vec3.mk.injEq]
      refine ⟨?_, ?_, ?_⟩
      · rw [hx, hz]; linear_combination (ox + rec1.t * dx) * hsc
      · rw [hy]
      · rw [hx, hz]; linear_combination (oz + rec1.t * dz) * hsc

/-- Concrete refutation of C3 as stated: the xy rect `[0,1]×[0,1]` at
`z = 1`, queried by the ray from `(1/2, 1/2, 0)` along `(0, 0, 1)` over the
interval `(t_min, t_max) = (1, 2)`, returns a hit with `t = 1 = t_min`,
which is **not** strictly inside the open interval. -/
theorem C3_counterexample :
    ¬ (∀ rec : HitRec Unit,
        XYRect.hit ⟨0, 1, 0, 1, 1, ()⟩ ⟨⟨1/2, 1/2, 0⟩, ⟨0, 0, 1⟩, 0⟩ 1 2 =
          some rec →
        1 < rec.t ∧ rec.t < 2) := by
  intro hall
  have hhit : XYRect.hit ⟨0, 1, 0, 1, 1, ()⟩ ⟨⟨1/2, 1/2, 0⟩, ⟨0, 0, 1⟩, 0⟩ 1 2 =
      some ⟨⟨1/2, 1/2, 1⟩, ⟨0, 0, -1⟩, (), 1, 1/2, 1/2, false⟩ := by
    norm_num [XYRect.hit, withFaceNormal, hitFrontFace, Ray.at, Vec3.mk_add,
      Vec3.mk_smul, Vec3.mk_neg, Vec3.mk_dot]
  exact absurd (hall _ hhit).1 (by norm_num)

/-- Closed instance of the amended C3 theorem: the same rect and ray as the
counterexample, whose hit at `t = 1` does lie in the closed interval
`[1, 2]` with the hit point on the ray. -/
theorem C3_witness :
    (1 : ℚ) ≤ (⟨⟨1/2, 1/2, 1⟩, ⟨0, 0, -1⟩, (), 1, 1/2, 1/2, false⟩ :
        HitRec Unit).t ∧
    (⟨⟨1/2, 1/2, 1⟩, ⟨0, 0, -1⟩, (), 1, 1/2, 1/2, false⟩ : HitRec Unit).t ≤ 2 ∧
    (⟨⟨1/2, 1/2, 1⟩, ⟨0, 0, -1⟩, (), 1, 1/2, 1/2, false⟩ : HitRec Unit).p =
      Ray.at ⟨⟨1/2, 1/2, 0⟩, ⟨0, 0, 1⟩, 0⟩
        (⟨⟨1/2, 1/2, 1⟩, ⟨0, 0, -1⟩, (), 1, 1/2, 1/2, false⟩ : HitRec Unit).t :=
  C3_hit_parameter_in_interval.1 ⟨0, 1, 0, 1, 1, ()⟩
    ⟨⟨1/2, 1/2, 0⟩, ⟨0, 0, 1⟩, 0⟩ 1 2
    ⟨⟨1/2, 1/2, 1⟩, ⟨0, 0, -1⟩, (), 1, 1/2, 1/2, false⟩
    (by norm_num)
    (by norm_num [XYRect.hit, withFaceNormal, hitFrontFace, Ray.at,
      Vec3.mk_add, Vec3.mk_smul, Vec3.mk_neg, Vec3.mk_dot])

/-- C1: the integrator returns black at depth 0; at positive depth it
intersects the world over `(0.001, +∞)`; a miss yields the configured
background (the solid color, or the linear blend); a hit whose material
does not scatter yields only the emitted color; a scattering hit yields
`emitted + attenuation * ray_color(scattered, depth − 1)` with the
componentwise color product; and `main` configures bounce depth 50 for
every scene. -/
theorem C1_ray_color_recursion (unitY : Ray → ℚ) (bg : BackgroundQ)
    (world : WorldFn) (r : Ray) (depth : ℕ) :
    (rayColor unitY bg world r 0 = 0) ∧
    (∀ c, bg = .solid c → world r (1/1000) ⊤ = none →
      rayColor unitY bg world r (depth + 1) = c) ∧
    (∀ cFrom cTo, bg = .linearInterp cFrom cTo → world r (1/1000) ⊤ = none →
      rayColor unitY bg world r (depth + 1) = linearBlend unitY r cFrom cTo) ∧
    (∀ rec m, world r (1/1000) ⊤ = some (rec, m) → m.scatter r rec = none →
      rayColor unitY bg world r (depth + 1) = m.emitted rec.u rec.v rec.p) ∧
    (∀ rec m scat, world r (1/1000) ⊤ = some (rec, m) →
      m.scatter r rec = some scat →
      rayColor unitY bg world r (depth + 1) =
        m.emitted rec.u rec.v rec.p +
          scat.attenuation * rayColor unitY bg world scat.scattered depth) ∧
    (∀ s : SceneKind, mainRayBounceDepth s = 50) := by
  refine ⟨rfl, ?_, ?_, ?_, ?_, ?_⟩
  · intro c hbg hmiss
    subst hbg
    simp only [rayColor]
    rw [hmiss]
  · intro cFrom cTo hbg hmiss
    subst hbg
    simp only [rayColor]
    rw [hmiss]
  · intro rec m hhit hscat
    simp only [rayColor]
    rw [hhit]
    simp only
    rw [hscat]
  · intro rec m scat hhit hscat
    simp only [rayColor]
    rw [hhit]
    simp only
    rw [hscat]
  · intro s
    cases s <;> rfl

/-- Closed instance of the C1 theorem: over an empty world (every probe
misses) with a solid red background, one bounce of the integrator returns
the background color, and the depth 0 call returns black. -/
theorem C1_witness :
    rayColor (fun _ => 0) (.solid ⟨1, 0, 0⟩) (fun _ _ _ => none)
        ⟨⟨0, 0, 0⟩, ⟨0, 0, 1⟩, 0⟩ 1 = ⟨1, 0, 0⟩ ∧
    rayColor (fun _ => 0) (.solid ⟨1, 0, 0⟩) (fun _ _ _ => none)
        ⟨⟨0, 0, 0⟩, ⟨0, 0, 1⟩, 0⟩ 0 = 0 :=
  ⟨(C1_ray_color_recursion (fun _ => 0) (.solid ⟨1, 0, 0⟩) (fun _ _ _ => none)
      ⟨⟨0, 0, 0⟩, ⟨0, 0, 1⟩, 0⟩ 0).2.1 ⟨1, 0, 0⟩ rfl rfl,
   (C1_ray_color_recursion (fun _ => 0) (.solid ⟨1, 0, 0⟩) (fun _ _ _ => none)
      ⟨⟨0, 0, 0⟩, ⟨0, 0, 1⟩, 0⟩ 0).1⟩

/-- C6 (amended): `Translate(x, v).hit(r)` delegates to
`x.hit(r with origin − v)` and, on a hit, returns the inner record with the
hit point translated by `+v` and with `front_face` and the stored normal
**recomputed** by `set_face_normal` from the moved ray and the already
flipped inner normal: `front_face := direction · normal < 0` and the normal
flipped when that test fails.  `t`, `u` and `v` are unchanged.  When the
inner normal strictly opposes the ray direction the record is unchanged
except for the point (and `front_face` is forced to `true`). -/
theorem C6_translate_hit (tr : TranslateM Unit) (r : Ray) (t_min t_max : ℚ) :
    (tr.innerHit ⟨r.orig - tr.offset, r.dir, r.time⟩ t_min t_max = none →
      tr.hit r t_min t_max = none) ∧
    (∀ rec, tr.innerHit ⟨r.orig - tr.offset, r.dir, r.time⟩ t_min t_max =
        some rec →
      tr.hit r t_min t_max = some
        { rec with
            p := rec.p + tr.offset,
            front_face := hitFrontFace ⟨r.orig - tr.offset, r.dir, r.time⟩
              rec.normal,
            normal :=
              if hitFrontFace ⟨r.orig - tr.offset, r.dir, r.time⟩ rec.normal
              then rec.normal else -rec.normal }) ∧
    (∀ rec, tr.innerHit ⟨r.orig - tr.offset, r.dir, r.time⟩ t_min t_max =
        some rec →
      r.dir.dot rec.normal < 0 →
      tr.hit r t_min t_max = some
        { rec with p := rec.p + tr.offset, front_face := true }) := by
  refine ⟨fun h => ?_, fun rec h => ?_, fun rec h hopp => ?_⟩
  · simp [TranslateM.hit, h]
  · simp [TranslateM.hit, h, setFaceNormal]
  · have hff : hitFrontFace ⟨r.orig - tr.offset, r.dir, r.time⟩ rec.normal =
        true := by
      simp [hitFrontFace, hopp]
    simp [TranslateM.hit, h, setFaceNormal, hff]

/-- Concrete refutation of C6 as stated: an inner hittable returning a
back-face record (`front_face = false`, normal `(0,0,−1)` opposing the ray
direction `(0,0,1)`) wrapped in `Translate` with offset `(1,2,3)`.  The
inner record carries `front_face = false`, but the wrapped hit carries
`front_face = true`: the field is not propagated unchanged. -/
theorem C6_counterexample :
    ((TranslateM.hit
        ⟨fun _ _ _ => some ⟨⟨0, 0, 5⟩, ⟨0, 0, -1⟩, (), 5, 0, 0, false⟩,
         ⟨1, 2, 3⟩⟩
        ⟨⟨1, 2, 0⟩, ⟨0, 0, 1⟩, 0⟩ 0 10).map fun rec => rec.front_face) =
      some true ∧
    ((some (⟨⟨0, 0, 5⟩, ⟨0, 0, -1⟩, (), 5, 0, 0, false⟩ : HitRec Unit)).map
        fun rec => rec.front_face) = some false := by
  constructor
  · simp [TranslateM.hit, setFaceNormal, hitFrontFace, Vec3.mk_dot,
      Vec3.mk_sub]
  · rfl

/-- Closed instance of the amended C6 theorem: with the same inner hittable
and ray, the wrapper returns exactly the inner record with the point
translated by the offset and the face data recomputed. -/
theorem C6_witness :
    TranslateM.hit
        ⟨fun _ _ _ => some ⟨⟨0, 0, 5⟩, ⟨0, 0, -1⟩, (), 5, 0, 0, false⟩,
         ⟨1, 2, 3⟩⟩
        ⟨⟨1, 2, 0⟩, ⟨0, 0, 1⟩, 0⟩ 0 10 = some
      { (⟨⟨0, 0, 5⟩, ⟨0, 0, -1⟩, (), 5, 0, 0, false⟩ : HitRec Unit) with
          p := (⟨0, 0, 5⟩ : Vec3) + ⟨1, 2, 3⟩,
          front_face := true } :=
  (C6_translate_hit
      ⟨fun _ _ _ => some ⟨⟨0, 0, 5⟩, ⟨0, 0, -1⟩, (), 5, 0, 0, false⟩,
       ⟨1, 2, 3⟩⟩
      ⟨⟨1, 2, 0⟩, ⟨0, 0, 1⟩, 0⟩ 0 10).2.2
    ⟨⟨0, 0, 5⟩, ⟨0, 0, -1⟩, (), 5, 0, 0, false⟩ rfl
    (by norm_num [Vec3.mk_dot])

/-- C5: for a positive density (`neg_inv_density < 0`), a uniform sample in
`(0, 1)` (`ln U < 0`) and a ray of positive length, `ConstantMedium::hit`
behaves exactly as the claim describes it (the `hitSpec` reading: entry
clamped up to `t_min` and to 0, exit clamped down to `t_max`, rejection at
`t1 ≥ t2`, free path `d = neg_inv_density · ln U`, rejection when `d`
exceeds `(t2 − t1)·|direction|`, otherwise a hit at `t1 + d/|direction|`
carrying the isotropic phase material).  `ConstantMedium::from` stores
`neg_inv_density = −1/density`. -/
theorem C5_constant_medium_hit (cm : ConstantMediumM Unit)
    (lnU rayLength : ℚ) (r : Ray) (t_min t_max : ℚ)
    (hdens : cm.negInvDensity < 0) (hln : lnU < 0) (hlen : 0 < rayLength) :
    cm.hit lnU rayLength r t_min t_max =
      cm.hitSpec lnU rayLength r t_min t_max ∧
    (∀ (b : Option ℚ → Option (HitRec Unit)) (d : ℚ),
      (constantMediumFrom b d ()).negInvDensity = -(1 / d)) := by
  refine ⟨?_, fun b d => by simp [constantMediumFrom, neg_div]⟩
  have hpos : 0 < cm.negInvDensity * lnU := mul_pos_of_neg_of_neg hdens hln
  unfold ConstantMediumM.hit ConstantMediumM.hitSpec
  cases hb1 : cm.boundaryHit none with
  | none => rfl
  | some rec1 =>
    dsimp only
    cases hb2 : cm.boundaryHit (some (rec1.t + 1/100000)) with
    | none => rfl
    | some rec2 =>
      dsimp only
      simp only [ifLtMax, ifGtMin, ge_iff_le, gt_iff_lt]
      by_cases hA : Min.min rec2.t t_max ≤ Max.max rec1.t t_min
      · have hA2 : Min.min rec2.t t_max ≤ Max.max (Max.max rec1.t t_min) 0 :=
          le_trans hA (le_max_left _ _)
        simp [hA, hA2]
      · by_cases hB : Min.min rec2.t t_max ≤ Max.max (Max.max rec1.t t_min) 0
        · have hd : (Min.min rec2.t t_max - Max.max (Max.max rec1.t t_min) 0) *
              rayLength ≤ 0 := by
            have : Min.min rec2.t t_max - Max.max (Max.max rec1.t t_min) 0 ≤ 0 := by
              linarith
            exact mul_nonpos_of_nonpos_of_nonneg this (le_of_lt hlen)
          simp [hA, hB, lt_of_le_of_lt hd hpos]
        · simp [hA, hB]

/-- Closed instance of the C5 theorem: a boundary entered at `t = 1` and
left at `t = 3`, density 1, `ln U = −1`, unit-length direction: the code
path and the claimed reading agree. -/
theorem C5_witness :
    (constantMediumFrom
        (fun lo => match lo with
          | none => some ⟨⟨0, 0, 1⟩, ⟨0, 0, 1⟩, (), 1, 0, 0, true⟩
          | some _ => some ⟨⟨0, 0, 3⟩, ⟨0, 0, 1⟩, (), 3, 0, 0, true⟩)
        1 ()).hit (-1) 1 ⟨⟨0, 0, 0⟩, ⟨0, 0, 1⟩, 0⟩ 0 10 =
    (constantMediumFrom
        (fun lo => match lo with
          | none => some ⟨⟨0, 0, 1⟩, ⟨0, 0, 1⟩, (), 1, 0, 0, true⟩
          | some _ => some ⟨⟨0, 0, 3⟩, ⟨0, 0, 1⟩, (), 3, 0, 0, true⟩)
        1 ()).hitSpec (-1) 1 ⟨⟨0, 0, 0⟩, ⟨0, 0, 1⟩, 0⟩ 0 10 :=
  (C5_constant_medium_hit _ (-1) 1 ⟨⟨0, 0, 0⟩, ⟨0, 0, 1⟩, 0⟩ 0 10
    (by norm_num [constantMediumFrom]) (by norm_num) (by norm_num)).1

theorem placeRow_length (img : List Vec3) (start : ℕ) (colors : List Vec3)
    (h : start + colors.length ≤ img.length) :
    (placeRow img start colors).length = img.length := by
  simp [placeRow]
  omega

theorem placeRow_getElem_mid (img : List Vec3) (start : ℕ)
    (colors : List Vec3) (i : ℕ) (h : start + colors.length ≤ img.length)
    (h1 : start ≤ i) (h2 : i < start + colors.length) :
    (placeRow img start colors)[i]? = colors[i - start]? := by
  unfold placeRow
  rw [List.append_assoc, List.getElem?_append,
    if_neg (by simp; omega), List.getElem?_append,
    if_pos (by simp; omega)]
  congr 1
  simp
  omega

theorem placeRow_getElem_out (img : List Vec3) (start : ℕ)
    (colors : List Vec3) (i : ℕ) (h : start + colors.length ≤ img.length)
    (hout : i < start ∨ start + colors.length ≤ i) :
    (placeRow img start colors)[i]? = img[i]? := by
  unfold placeRow
  rcases hout with hlt | hge
  · rw [List.append_assoc, List.getElem?_append, if_pos (by simp; omega),
      List.getElem?_take, if_pos hlt]
  · rw [List.append_assoc, List.getElem?_append, if_neg (by simp; omega),
      List.getElem?_append, if_neg (by simp; omega)]
    rw [List.getElem?_drop]
    congr 1
    simp
    omega

theorem renderAssemble_length (width height : ℕ) (scanline : ℕ → List Vec3)
    (hlen : ∀ ro, (scanline ro).length = width) :
    ∀ (order : List ℕ), (∀ ro ∈ order, ro < height) →
    (renderAssemble width scanline order height).length = width * height := by
  suffices haux : ∀ (order : List ℕ) (img : List Vec3),
      (∀ ro ∈ order, ro < height) → img.length = width * height →
      (order.foldl (fun img row => placeRow img (row * width) (scanline row))
        img).length = width * height by
    intro order hmem
    exact haux order _ hmem (by simp)
  intro order
  induction order with
  | nil => intro img _ h; simpa using h
  | cons ro os ih =>
    intro img hmem himg
    simp only [List.foldl_cons]
    refine ih _ (fun x hx => hmem x (by simp [hx])) ?_
    rw [placeRow_length]
    · exact himg
    · rw [hlen ro, himg]
      have : ro + 1 ≤ height := hmem ro (by simp)
      calc ro * width + width = (ro + 1) * width := by ring
        _ ≤ height * width := Nat.mul_le_mul_right _ this
        _ = width * height := Nat.mul_comm _ _

theorem renderAssemble_getElem (width height : ℕ) (scanline : ℕ → List Vec3)
    (hlen : ∀ ro, (scanline ro).length = width) :
    ∀ (order : List ℕ), order.Nodup → (∀ ro ∈ order, ro < height) →
    ∀ row col, row ∈ order → col < width →
    (renderAssemble width scanline order height)[row * width + col]? =
      (scanline row)[col]? := by
  intro order
  induction order using List.reverseRecOn with
  | nil => intro _ _ row col hmem; simp at hmem
  | append_singleton os ro ih =>
    intro hnd hbound row col hmem hcol
    have hro : ro < height := hbound ro (by simp)
    have hosb : ∀ x ∈ os, x < height := fun x hx => hbound x (by simp [hx])
    have hprevlen :
        (renderAssemble width scanline os height).length = width * height :=
      renderAssemble_length width height scanline hlen os hosb
    have hstep : renderAssemble width scanline (os ++ [ro]) height =
        placeRow (renderAssemble width scanline os height) (ro * width)
          (scanline ro) := by
      unfold renderAssemble
      rw [List.foldl_append]
      rfl
    have hfit : ro * width + (scanline ro).length ≤
        (renderAssemble width scanline os height).length := by
      rw [hlen ro, hprevlen]
      have : ro + 1 ≤ height := hro
      calc ro * width + width = (ro + 1) * width := by ring
        _ ≤ height * width := Nat.mul_le_mul_right _ this
        _ = width * height := Nat.mul_comm _ _
    rcases List.mem_append.mp hmem with hos | hlast
    · have hne : row ≠ ro := by
        intro heq
        subst heq
        exact (List.disjoint_of_nodup_append hnd) hos (by simp)
      rw [hstep, placeRow_getElem_out _ _ _ _ hfit]
      · exact ih (List.Nodup.of_append_left hnd) hosb row col hos hcol
      · rw [hlen ro]
        rcases Nat.lt_or_ge row ro with hlt | hge
        · left
          calc row * width + col < row * width + width := by omega
            _ = (row + 1) * width := by ring
            _ ≤ ro * width := Nat.mul_le_mul_right _ hlt
        · right
          have hgt : ro + 1 ≤ row := by omega
          calc ro * width + width = (ro + 1) * width := by ring
            _ ≤ row * width := Nat.mul_le_mul_right _ hgt
            _ ≤ row * width + col := Nat.le_add_right _ _
    · have hrow : row = ro := by simpa using hlast
      subst hrow
      rw [hstep, placeRow_getElem_mid _ _ _ _ hfit (Nat.le_add_right _ _)
        (by rw [hlen row]; omega)]
      congr 1
      omega

theorem range_reverse_map (n : ℕ) :
    (List.range n).reverse = (List.range n).map (fun r => n - 1 - r) := by
  rw [List.range_eq_range', List.reverse_range', ← List.range_eq_range']
  simp

/-- C4 (amended): the renderer stores the pixel of image position
`(row, col)` at buffer index `row*W + col`, but buffer row 0 is the
**bottom** scanline as seen by the sampling formula: the vertical sampling
coordinate `v = (row + U)/(H−1)` grows with the row index and a larger `v`
raises the ray target along `+vertical`.  The PPM encoder compensates by
writing the buffer rows in **reverse** order (buffer row `H−1−r` for file
row `r`), `H·W` triples in total, so the first file row is the top
scanline. -/
theorem C4_buffer_layout_and_ppm_order :
    (∀ (width height : ℕ) (scanline : ℕ → List Vec3) (order : List ℕ)
        (row col : ℕ),
      (∀ ro, (scanline ro).length = width) → order.Nodup →
      (∀ ro ∈ order, ro < height) → row ∈ order → col < width →
      (renderAssemble width scanline order height)[row * width + col]? =
        (scanline row)[col]?) ∧
    (∀ width height : ℕ,
      ppmIndices width height =
        ((List.range height).reverse).flatMap fun r =>
          (List.range width).map fun c => r * width + c) ∧
    (∀ width height : ℕ,
      (ppmIndices width height).length = height * width) ∧
    (∀ (imageHeight row1 row2 : ℕ) (jitter : ℚ), 2 ≤ imageHeight →
      row1 < row2 → row2 < imageHeight →
      sampleV row1 imageHeight jitter < sampleV row2 imageHeight jitter) ∧
    (∀ (cam : CameraQ) (rd : Vec3) (time s t1 t2 : ℚ), t1 < t2 →
      0 < cam.vertical.y →
      (getRay cam rd time s t1).dir.y < (getRay cam rd time s t2).dir.y) := by
  refine ⟨?_, ?_, ?_, ?_, ?_⟩
  · intro width height scanline order row col hlen hnd hb hmem hcol
    exact renderAssemble_getElem width height scanline hlen order hnd hb
      row col hmem hcol
  · intro width height
    rw [range_reverse_map, List.flatMap_map]
    rfl
  · intro width height
    unfold ppmIndices
    rw [List.length_flatMap]
    simp [Function.comp_def, List.map_const']
  · intro imageHeight row1 row2 jitter hH h12 h2H
    unfold sampleV
    have hden : (0 : ℚ) < (imageHeight : ℚ) - 1 := by
      have : (2 : ℚ) ≤ (imageHeight : ℚ) := by exact_mod_cast hH
      linarith
    have hnum : (row1 : ℚ) + jitter < (row2 : ℚ) + jitter := by
      have : (row1 : ℚ) < (row2 : ℚ) := by exact_mod_cast h12
      linarith
    exact div_lt_div_of_pos_right hnum hden
  · intro cam rd time s t1 t2 ht hvy
    simp only [getRay, Vec3.add_y, Vec3.sub_y, Vec3.smul_y]
    nlinarith

/-- Concrete refutation of C4 as stated: for a 1×2 image the PPM encoder
does **not** emit the buffer in row-major order with buffer row 0 first —
it writes index 1 (the last buffer row) before index 0. -/
theorem C4_counterexample : ppmIndices 1 2 ≠ List.range (2 * 1) := by decide

/-- Closed instance of the amended C4 theorem: in a 1×2 image assembled
from rows received out of order, the pixel of scanline 1 sits at buffer
index `1*1 + 0`, and the vertical sampling coordinate of row 0 is below
that of row 1. -/
theorem C4_witness :
    (renderAssemble 1 (fun r => [(⟨(r : ℚ), 0, 0⟩ : Vec3)]) [1, 0] 2)[1 * 1 + 0]? =
      [(⟨(1 : ℚ), 0, 0⟩ : Vec3)][0]? ∧
    sampleV 0 2 0 < sampleV 1 2 0 :=
  ⟨C4_buffer_layout_and_ppm_order.1 1 2 (fun r => [(⟨(r : ℚ), 0, 0⟩ : Vec3)])
      [1, 0] 1 0 (fun _ => rfl) (by decide) (by decide) (by decide)
      (by decide),
   C4_buffer_layout_and_ppm_order.2.2.2.1 2 0 1 0 (by norm_num) (by norm_num)
      (by norm_num)⟩

theorem surroundOk_mkNode {P : Type} (boxOf : P → Option Aabb)
    {l r T : BvhT P} (hl : surroundOk boxOf l = true)
    (hr : surroundOk boxOf r = true) (h : mkNode boxOf l r = some T) :
    surroundOk boxOf T = true := by
  unfold mkNode at h
  cases hbl : bvhBoundingBox boxOf l with
  | none => rw [hbl] at h; simp at h
  | some bl =>
    cases hbr : bvhBoundingBox boxOf r with
    | none => rw [hbl, hbr] at h; simp at h
    | some br =>
      rw [hbl, hbr] at h
      rw [Option.some.injEq] at h
      subst h
      simp [surroundOk, hbl, hbr, hl, hr]

theorem splitVolumes_none_of_missing {P : Type} (boxOf : P → Option Aabb)
    (axisOf : List P → Fin 3) :
    ∀ objects : List P, (∃ p ∈ objects, boxOf p = none) →
    splitVolumes boxOf axisOf objects = none := by
  intro objects hmiss
  obtain ⟨x, hx, hbox⟩ := hmiss
  match objects, hx with
  | [p], hx =>
    have hxp : x = p := by simpa using hx
    subst hxp
    simp [splitVolumes, mkNode, bvhBoundingBox, hbox]
  | [p, q], hx =>
    have hxpq : x = p ∨ x = q := by simpa using hx
    rcases hxpq with rfl | rfl
    · simp [splitVolumes, hbox]
    · simp only [splitVolumes, hbox]
      cases boxOf p <;> simp
  | p :: q :: s :: rest, hx =>
    have hany : (p :: q :: s :: rest).any (fun a => (boxOf a).isNone) = true := by
      rw [List.any_eq_true]
      exact ⟨x, hx, by simp [hbox]⟩
    simp [splitVolumes, hany]

theorem splitVolumes_surroundOk {P : Type} (boxOf : P → Option Aabb)
    (axisOf : List P → Fin 3) :
    ∀ (objects : List P) (T : BvhT P),
    splitVolumes boxOf axisOf objects = some T →
    surroundOk boxOf T = true := by
  have H : ∀ (n : ℕ) (objects : List P), objects.length ≤ n → ∀ T : BvhT P,
      splitVolumes boxOf axisOf objects = some T →
      surroundOk boxOf T = true := by
    intro n
    induction n with
    | zero =>
      intro objects hlen T h
      have hobj : objects = [] := List.length_eq_zero.mp (Nat.le_zero.mp hlen)
      subst hobj
      simp [splitVolumes] at h
    | succ n ih =>
      intro objects hlen T h
      match objects, hlen, h with
      | [], hlen, h => simp [splitVolumes] at h
      | [p], hlen, h =>
        simp only [splitVolumes] at h
        exact surroundOk_mkNode boxOf (by simp [surroundOk])
          (by simp [surroundOk]) h
      | [p, q], hlen, h =>
        simp only [splitVolumes] at h
        cases hbp : boxOf p with
        | none => rw [hbp] at h; simp at h
        | some bp =>
          rw [hbp] at h
          cases hbq : boxOf q with
          | none => rw [hbq] at h; simp at h
          | some bq =>
            rw [hbq] at h
            dsimp only at h
            split_ifs at h <;>
              exact surroundOk_mkNode boxOf (by simp [surroundOk])
                (by simp [surroundOk]) h
      | p :: q :: sx :: rest, hlen, h =>
        rw [splitVolumes] at h
        by_cases hany :
            ((p :: q :: sx :: rest).any fun a => (boxOf a).isNone) = true
        · rw [if_pos hany] at h
          simp at h
        · rw [if_neg hany] at h
          simp only at h
          have hSlen : (sortByBoxMin boxOf (axisOf (p :: q :: sx :: rest))
              (p :: q :: sx :: rest)).length = rest.length + 3 := by
            simp [sortByBoxMin, List.length_mergeSort]
          cases htake : splitVolumes boxOf axisOf
              ((sortByBoxMin boxOf (axisOf (p :: q :: sx :: rest))
                (p :: q :: sx :: rest)).take
                ((sortByBoxMin boxOf (axisOf (p :: q :: sx :: rest))
                  (p :: q :: sx :: rest)).length / 2)) with
          | none => rw [htake] at h; simp at h
          | some lT =>
            rw [htake] at h
            cases hdrop : splitVolumes boxOf axisOf
                ((sortByBoxMin boxOf (axisOf (p :: q :: sx :: rest))
                  (p :: q :: sx :: rest)).drop
                  ((sortByBoxMin boxOf (axisOf (p :: q :: sx :: rest))
                    (p :: q :: sx :: rest)).length / 2)) with
            | none => rw [hdrop] at h; simp at h
            | some rT =>
              rw [hdrop] at h
              dsimp only at h
              have hlen2 : rest.length + 3 ≤ n + 1 := by
                simpa using hlen
              refine surroundOk_mkNode boxOf ?_ ?_ h
              · refine ih _ ?_ _ htake
                rw [List.length_take, hSlen]
                omega
              · refine ih _ ?_ _ hdrop
                rw [List.length_drop, hSlen]
                omega
  exact fun objects T h => H objects.length objects le_rfl T h

/-- C8: BVH construction fails hard — the modelled `panic!` outcome `none`,
never a degraded tree — whenever any hittable of the input list has no
bounding box, and every successfully constructed tree satisfies
`surroundOk`: the stored box of each node is exactly the surround of the
boxes of its two children. -/
theorem C8_bvh_build_box_discipline {P : Type} (boxOf : P → Option Aabb)
    (axisOf : List P → Fin 3) :
    (∀ objects : List P, (∃ p ∈ objects, boxOf p = none) →
      splitVolumes boxOf axisOf objects = none) ∧
    (∀ (objects : List P) (T : BvhT P),
      splitVolumes boxOf axisOf objects = some T →
      surroundOk boxOf T = true) :=
  ⟨fun objects h => splitVolumes_none_of_missing boxOf axisOf objects h,
   fun objects T h => splitVolumes_surroundOk boxOf axisOf objects T h⟩

/-- Closed instance of the C8 theorem: a one-element list whose member has
no box makes construction fail, and the tree built over a boxed member
satisfies the surround discipline. -/
theorem C8_witness :
    splitVolumes (fun _ : Unit => (none : Option Aabb)) (fun _ => 0) [()] =
      none ∧
    surroundOk (fun _ : Unit => some (⟨⟨0, 0, 0⟩, ⟨1, 1, 1⟩⟩ : Aabb))
      (.node ⟨⟨0, 0, 0⟩, ⟨1, 1, 1⟩⟩ (.prim ()) (.prim ())) = true :=
  ⟨(C8_bvh_build_box_discipline (fun _ => none) (fun _ => 0)).1 [()]
      ⟨(), by simp, rfl⟩,
   (C8_bvh_build_box_discipline (fun _ => some ⟨⟨0, 0, 0⟩, ⟨1, 1, 1⟩⟩)
      (fun _ => 0)).2 [()]
      (.node ⟨⟨0, 0, 0⟩, ⟨1, 1, 1⟩⟩ (.prim ()) (.prim ()))
      (by simp [splitVolumes, mkNode, bvhBoundingBox, Aabb.surrounding])⟩

theorem omin_none_left (o : Option ℚ) : omin none o = o := rfl

theorem omin_none_right (o : Option ℚ) : omin o none = o := by
  cases o <;> rfl

theorem omin_comm (o1 o2 : Option ℚ) : omin o1 o2 = omin o2 o1 := by
  cases o1 <;> cases o2 <;> simp [omin, min_comm]

theorem omin_assoc (o1 o2 o3 : Option ℚ) :
    omin (omin o1 o2) o3 = omin o1 (omin o2 o3) := by
  cases o1 <;> cases o2 <;> cases o3 <;> simp [omin, min_assoc]

theorem listMin_nil : listMin [] = none := rfl

theorem listMin_cons (x : ℚ) (l : List ℚ) :
    listMin (x :: l) = omin (some x) (listMin l) := rfl

theorem listMin_append (l1 l2 : List ℚ) :
    listMin (l1 ++ l2) = omin (listMin l1) (listMin l2) := by
  induction l1 with
  | nil => simp [listMin_nil, omin_none_left]
  | cons x l ih =>
    rw [List.cons_append, listMin_cons, listMin_cons, ih, omin_assoc]

theorem listMin_mem {l : List ℚ} {m : ℚ} (h : listMin l = some m) : m ∈ l := by
  induction l with
  | nil => simp [listMin_nil] at h
  | cons x l ih =>
    rw [listMin_cons] at h
    cases hl : listMin l with
    | none =>
      rw [hl, omin_none_right, Option.some.injEq] at h
      simp [h]
    | some y =>
      rw [hl] at h
      simp only [omin, Option.some.injEq] at h
      rcases min_cases x y with ⟨heq, _⟩ | ⟨heq, _⟩
      · rw [heq] at h
        simp [h]
      · rw [heq] at h
        subst h
        exact List.mem_cons_of_mem _ (ih hl)

theorem listMin_eq_none_iff {l : List ℚ} : listMin l = none ↔ l = [] := by
  constructor
  · intro h
    cases l with
    | nil => rfl
    | cons x l =>
      rw [listMin_cons] at h
      cases hl : listMin l <;> rw [hl] at h <;> simp [omin] at h
  · intro h
    subst h
    rfl

theorem listMin_le {l : List ℚ} {m : ℚ} (h : listMin l = some m) :
    ∀ y ∈ l, m ≤ y := by
  induction l generalizing m with
  | nil => simp [listMin_nil] at h
  | cons x l ih =>
    rw [listMin_cons] at h
    intro y hy
    cases hl : listMin l with
    | none =>
      rw [hl, omin_none_right, Option.some.injEq] at h
      subst h
      rcases List.mem_cons.mp hy with rfl | hyl
      · exact le_refl _
      · rw [listMin_eq_none_iff] at hl
        subst hl
        simp at hyl
    | some z =>
      rw [hl] at h
      simp only [omin, Option.some.injEq] at h
      subst h
      rcases List.mem_cons.mp hy with rfl | hyl
      · exact min_le_left _ _
      · exact le_trans (min_le_right _ _) (ih hl y hyl)

theorem listMin_eq_of_mem_iff {l1 l2 : List ℚ}
    (h : ∀ x, x ∈ l1 ↔ x ∈ l2) : listMin l1 = listMin l2 := by
  cases h1 : listMin l1 with
  | none =>
    rw [listMin_eq_none_iff] at h1
    subst h1
    cases h2 : listMin l2 with
    | none => rfl
    | some m => exact absurd ((h m).mpr (listMin_mem h2)) (by simp)
  | some m1 =>
    cases h2 : listMin l2 with
    | none =>
      rw [listMin_eq_none_iff] at h2
      subst h2
      exact absurd ((h m1).mp (listMin_mem h1)) (by simp)
    | some m2 =>
      have hle1 : m1 ≤ m2 := listMin_le h1 m2 ((h m2).mpr (listMin_mem h2))
      have hle2 : m2 ≤ m1 := listMin_le h2 m1 ((h m1).mp (listMin_mem h1))
      rw [le_antisymm hle1 hle2]

theorem find?_sorted_eq_listMin_filter (a b : ℚ) (l : List ℚ)
    (hs : l.Sorted (· ≤ ·)) :
    l.find? (fun τ => decide (a ≤ τ) && decide (τ ≤ b)) =
      listMin (l.filter (fun τ => decide (a ≤ τ) && decide (τ ≤ b))) := by
  induction l with
  | nil => rfl
  | cons x l ih =>
    have hs2 := List.sorted_cons.mp hs
    by_cases hx : (fun τ => decide (a ≤ τ) && decide (τ ≤ b)) x = true
    · rw [@List.find?_cons_of_pos _ (fun τ => decide (a ≤ τ) && decide (τ ≤ b))
        x l hx,
        @List.filter_cons_of_pos _ (fun τ => decide (a ≤ τ) && decide (τ ≤ b))
        x l hx, listMin_cons]
      cases hrest : listMin
          (l.filter (fun τ => decide (a ≤ τ) && decide (τ ≤ b))) with
      | none => rw [omin_none_right]
      | some m =>
        have hmem : m ∈ l.filter (fun τ => decide (a ≤ τ) && decide (τ ≤ b)) :=
          listMin_mem hrest
        have hxm : x ≤ m := hs2.1 m (List.mem_of_mem_filter hmem)
        simp [omin, min_eq_left hxm]
    · rw [@List.find?_cons_of_neg _ (fun τ => decide (a ≤ τ) && decide (τ ≤ b))
        x l hx,
        @List.filter_cons_of_neg _ (fun τ => decide (a ≤ τ) && decide (τ ≤ b))
        x l hx]
      exact ih hs2.2

theorem aprimHit_map_t (p : APrim) (r : Ray) (a b : ℚ)
    (hs : (p.hits r).Sorted (· ≤ ·)) :
    (p.hit r a b).map (fun rec => rec.t) = listMin (candsIn p r a b) := by
  unfold APrim.hit candsIn
  rw [find?_sorted_eq_listMin_filter a b _ hs]
  cases listMin
      ((p.hits r).filter (fun τ => decide (a ≤ τ) && decide (τ ≤ b))) <;> rfl

theorem aprimHit_some {p : APrim} {r : Ray} {a b : ℚ} {rec : HitRec ℕ}
    (h : p.hit r a b = some rec) :
    rec.t ∈ p.hits r ∧ a ≤ rec.t ∧ rec.t ≤ b ∧ rec.mat = p.mid := by
  unfold APrim.hit at h
  cases hf : (p.hits r).find? (fun τ => decide (a ≤ τ) && decide (τ ≤ b)) with
  | none => rw [hf] at h; simp at h
  | some τ =>
    rw [hf] at h
    rw [Option.some.injEq] at h
    subst h
    have hmem := List.mem_of_find?_eq_some hf
    have hpred := List.find?_some hf
    simp only [Bool.and_eq_true, decide_eq_true_eq] at hpred
    exact ⟨hmem, hpred.1, hpred.2, rfl⟩

theorem filter_interval_clip (a : ℚ) {x b1 b2 : ℚ} (hx : x ≤ b2)
    (hb : b2 ≤ b1) (l : List ℚ) :
    omin (some x)
        (listMin (l.filter (fun τ => decide (a ≤ τ) && decide (τ ≤ b1)))) =
      omin (some x)
        (listMin (l.filter (fun τ => decide (a ≤ τ) && decide (τ ≤ b2)))) := by
  induction l with
  | nil => rfl
  | cons y l ih =>
    by_cases hy2 : (fun τ => decide (a ≤ τ) && decide (τ ≤ b2)) y = true
    · have hy1 : (fun τ => decide (a ≤ τ) && decide (τ ≤ b1)) y = true := by
        simp only [Bool.and_eq_true, decide_eq_true_eq] at hy2 ⊢
        exact ⟨hy2.1, le_trans hy2.2 hb⟩
      rw [@List.filter_cons_of_pos _
          (fun τ => decide (a ≤ τ) && decide (τ ≤ b1)) y l hy1,
        @List.filter_cons_of_pos _
          (fun τ => decide (a ≤ τ) && decide (τ ≤ b2)) y l hy2,
        listMin_cons, listMin_cons, ← omin_assoc, ← omin_assoc,
        omin_comm (some x) (some y), omin_assoc, omin_assoc, ih]
    · by_cases hy1 : (fun τ => decide (a ≤ τ) && decide (τ ≤ b1)) y = true
      · have hxy : x ≤ y := by
          simp only [Bool.and_eq_true, decide_eq_true_eq, not_and] at hy1 hy2
          rcases le_or_lt y b2 with hc | hc
          · exact absurd hc (hy2 hy1.1)
          · exact le_trans hx (le_of_lt hc)
        rw [@List.filter_cons_of_pos _
            (fun τ => decide (a ≤ τ) && decide (τ ≤ b1)) y l hy1,
          @List.filter_cons_of_neg _
            (fun τ => decide (a ≤ τ) && decide (τ ≤ b2)) y l hy2,
          listMin_cons, ← omin_assoc]
        have habs : omin (some x) (some y) = some x := by
          simp [omin, min_eq_left hxy]
        rw [habs, ih]
      · rw [@List.filter_cons_of_neg _
            (fun τ => decide (a ≤ τ) && decide (τ ≤ b1)) y l hy1,
          @List.filter_cons_of_neg _
            (fun τ => decide (a ≤ τ) && decide (τ ≤ b2)) y l hy2, ih]

theorem minCand_nil (r : Ray) (a b : ℚ) : minCand [] r a b = none := rfl

theorem minCand_cons (p : APrim) (ps : List APrim) (r : Ray) (a b : ℚ) :
    minCand (p :: ps) r a b =
      omin (listMin (candsIn p r a b)) (minCand ps r a b) := by
  unfold minCand
  rw [List.flatMap_cons, listMin_append]

theorem minCand_append (ps1 ps2 : List APrim) (r : Ray) (a b : ℚ) :
    minCand (ps1 ++ ps2) r a b =
      omin (minCand ps1 r a b) (minCand ps2 r a b) := by
  unfold minCand
  rw [List.flatMap_append, listMin_append]

theorem omin_some_distrib (x : ℚ) (o1 o2 : Option ℚ) :
    omin (some x) (omin o1 o2) =
      omin (omin (some x) o1) (omin (some x) o2) := by
  cases o1 <;> cases o2 <;> simp [omin, inf_inf_distrib_left, min_self]

theorem minCand_clip {x b1 b2 : ℚ} (hx : x ≤ b2) (hb : b2 ≤ b1)
    (ps : List APrim) (r : Ray) (a : ℚ) :
    omin (some x) (minCand ps r a b1) = omin (some x) (minCand ps r a b2) := by
  induction ps with
  | nil => rfl
  | cons p ps ih =>
    rw [minCand_cons, minCand_cons, omin_some_distrib, omin_some_distrib, ih]
    congr 1
    simp only [candsIn]
    exact filter_interval_clip a hx hb (p.hits r)

theorem omin_some_absorb {x y : ℚ} (h : x ≤ y) :
    omin (some x) (some y) = some x := by
  simp [omin, min_eq_left h]

theorem listHitGo_spec (r : Ray) (t_min : ℚ) :
    ∀ (ps : List APrim) (best : Option (HitRec ℕ)) (closest : ℚ),
    (∀ p ∈ ps, (p.hits r).Sorted (· ≤ ·)) →
    (∀ rec, best = some rec → rec.t = closest) →
    (listHitGo r t_min ps best closest).map (fun rec => rec.t) =
      omin (minCand ps r t_min closest) (best.map (fun rec => rec.t)) := by
  intro ps
  induction ps with
  | nil =>
    intro best closest hs hbest
    simp [listHitGo, minCand_nil, omin_none_left]
  | cons p ps ih =>
    intro best closest hs hbest
    have hsp : (p.hits r).Sorted (· ≤ ·) := hs p (by simp)
    have hsps : ∀ q ∈ ps, (q.hits r).Sorted (· ≤ ·) := fun q hq =>
      hs q (by simp [hq])
    rw [minCand_cons]
    unfold listHitGo
    cases hph : p.hit r t_min closest with
    | none =>
      have hnone : listMin (candsIn p r t_min closest) = none := by
        have hmt := aprimHit_map_t p r t_min closest hsp
        rw [hph] at hmt
        exact hmt.symm
      rw [ih best closest hsps hbest, hnone, omin_none_left]
    | some rec =>
      have hmap := aprimHit_map_t p r t_min closest hsp
      rw [hph] at hmap
      have hprops := aprimHit_some hph
      have hrt : rec.t ≤ closest := hprops.2.2.1
      rw [ih (some rec) rec.t hsps (fun rec2 h2 => by cases h2; rfl)]
      rw [← hmap]
      simp only [Option.map_some']
      cases hbv : best with
      | none =>
        simp only [Option.map_none']
        rw [omin_none_right,
          omin_comm (minCand ps r t_min rec.t) (some rec.t)]
        exact (minCand_clip le_rfl hrt ps r t_min).symm
      | some brec =>
        have hbt : brec.t = closest := hbest brec hbv
        simp only [Option.map_some', hbt]
        rw [omin_assoc, omin_comm (minCand ps r t_min closest) (some closest),
          ← omin_assoc, omin_some_absorb hrt,
          omin_comm (minCand ps r t_min rec.t) (some rec.t)]
        exact (minCand_clip le_rfl hrt ps r t_min).symm

theorem hittableListHit_map_t (ps : List APrim) (r : Ray) (a b : ℚ)
    (hs : ∀ p ∈ ps, (p.hits r).Sorted (· ≤ ·)) :
    (hittableListHit ps r a b).map (fun rec => rec.t) = minCand ps r a b := by
  unfold hittableListHit
  rw [listHitGo_spec r a ps none b hs (by simp)]
  simp [omin_none_right]

theorem slabAxis_pass {mn mx o d tmin tmax τ : ℚ} (hd : d ≠ 0)
    (h1 : mn < o + τ * d) (h2 : o + τ * d < mx) (h3 : tmin < τ)
    (h4 : τ ≤ tmax) :
    (slabAxis mn mx o d tmin tmax).1 < τ ∧
      τ ≤ (slabAxis mn mx o d tmin tmax).2 := by
  simp only [slabAxis]
  rcases lt_or_gt_of_ne hd with hneg | hpos
  · have hinv : (1 : ℚ) / d < 0 := one_div_neg.mpr hneg
    rw [if_pos hinv]
    have hs1 : (mx - o) * (1 / d) < τ := by
      rw [mul_one_div, div_lt_iff_of_neg hneg]
      linarith
    have hs2 : τ < (mn - o) * (1 / d) := by
      rw [mul_one_div, lt_div_iff_of_neg hneg]
      linarith
    constructor
    · dsimp only
      split_ifs with h
      · exact hs1
      · exact h3
    · dsimp only
      split_ifs with h
      · linarith
      · exact h4
  · have hinv : ¬ ((1 : ℚ) / d < 0) :=
      not_lt.mpr (le_of_lt (by positivity))
    rw [if_neg hinv]
    have hs1 : (mn - o) * (1 / d) < τ := by
      rw [mul_one_div, div_lt_iff hpos]
      linarith
    have hs2 : τ < (mx - o) * (1 / d) := by
      rw [mul_one_div, lt_div_iff hpos]
      linarith
    constructor
    · dsimp only
      split_ifs with h
      · exact hs1
      · exact h3
    · dsimp only
      split_ifs with h
      · linarith
      · exact h4

theorem aabbHit_pass {bx : Aabb} {r : Ray} {a b' τ : ℚ}
    (hdx : r.dir.x ≠ 0) (hdy : r.dir.y ≠ 0) (hdz : r.dir.z ≠ 0)
    (hin : strictlyInside (r.at τ) bx) (h3 : a < τ) (h4 : τ ≤ b') :
    aabbHit bx r a b' ≠ none := by
  obtain ⟨hx1, hx2, hy1, hy2, hz1, hz2⟩ := hin
  have hax : (r.at τ).x = r.orig.x + τ * r.dir.x := rfl
  have hay : (r.at τ).y = r.orig.y + τ * r.dir.y := rfl
  have haz : (r.at τ).z = r.orig.z + τ * r.dir.z := rfl
  rw [hax] at hx1 hx2
  rw [hay] at hy1 hy2
  rw [haz] at hz1 hz2
  have P1 := slabAxis_pass hdx hx1 hx2 h3 h4
  have P2 := slabAxis_pass hdy hy1 hy2 P1.1 P1.2
  have P3 := slabAxis_pass hdz hz1 hz2 P2.1 P2.2
  intro hnone
  simp only [aabbHit] at hnone
  split_ifs at hnone with c1 c2 c3
  · exact absurd c1 (not_le.mpr (lt_of_lt_of_le P1.1 P1.2))
  · exact absurd c2 (not_le.mpr (lt_of_lt_of_le P2.1 P2.2))
  · exact absurd c3 (not_le.mpr (lt_of_lt_of_le P3.1 P3.2))

theorem surrounding_contains_left (b0 b1 : Aabb) :
    (b0.surrounding b1).containsBox b0 :=
  ⟨min_le_left _ _, min_le_left _ _, min_le_left _ _,
   le_max_left _ _, le_max_left _ _, le_max_left _ _⟩

theorem surrounding_contains_right (b0 b1 : Aabb) :
    (b0.surrounding b1).containsBox b1 :=
  ⟨min_le_right _ _, min_le_right _ _, min_le_right _ _,
   le_max_right _ _, le_max_right _ _, le_max_right _ _⟩

theorem containsBox_trans {A B C : Aabb} (h1 : A.containsBox B)
    (h2 : B.containsBox C) : A.containsBox C := by
  obtain ⟨a1, a2, a3, a4, a5, a6⟩ := h1
  obtain ⟨b1, b2, b3, b4, b5, b6⟩ := h2
  exact ⟨le_trans a1 b1, le_trans a2 b2, le_trans a3 b3,
    le_trans b4 a4, le_trans b5 a5, le_trans b6 a6⟩

theorem containsBox_refl (A : Aabb) : A.containsBox A :=
  ⟨le_refl _, le_refl _, le_refl _, le_refl _, le_refl _, le_refl _⟩

theorem strictlyInside_mono {pt : Vec3} {outer inner : Aabb}
    (hc : outer.containsBox inner) (h : strictlyInside pt inner) :
    strictlyInside pt outer := by
  obtain ⟨c1, c2, c3, c4, c5, c6⟩ := hc
  obtain ⟨i1, i2, i3, i4, i5, i6⟩ := h
  exact ⟨lt_of_le_of_lt c1 i1, lt_of_lt_of_le i2 c4,
    lt_of_le_of_lt c2 i3, lt_of_lt_of_le i4 c5,
    lt_of_le_of_lt c3 i5, lt_of_lt_of_le i6 c6⟩

theorem surroundOk_contains (T : BvhT APrim)
    (h : surroundOk aprimBox T = true) :
    ∀ bx, bvhBoundingBox aprimBox T = some bx →
    ∀ p ∈ flattenT T, bx.containsBox p.box := by
  induction T with
  | prim q =>
    intro bx hbx p hp
    simp only [flattenT, List.mem_singleton] at hp
    subst hp
    simp only [bvhBoundingBox, aprimBox, Option.some.injEq] at hbx
    subst hbx
    exact containsBox_refl _
  | node nb l rt ihl ihr =>
    intro bx hbx p hp
    simp only [bvhBoundingBox, Option.some.injEq] at hbx
    subst hbx
    unfold surroundOk at h
    cases hbl : bvhBoundingBox aprimBox l with
    | none => rw [hbl] at h; simp at h
    | some bl =>
      cases hbr : bvhBoundingBox aprimBox rt with
      | none => rw [hbl, hbr] at h; simp at h
      | some br =>
        rw [hbl, hbr] at h
        simp only [Bool.and_eq_true, decide_eq_true_eq] at h
        obtain ⟨⟨heq, hsl⟩, hsr⟩ := h
        subst heq
        rcases List.mem_append.mp (by simpa [flattenT] using hp) with hpl | hpr
        · exact containsBox_trans (surrounding_contains_left bl br)
            (ihl hsl bl hbl p hpl)
        · exact containsBox_trans (surrounding_contains_right bl br)
            (ihr hsr br hbr p hpr)

theorem minCand_some_mem {ps : List APrim} {r : Ray} {a b m : ℚ}
    (h : minCand ps r a b = some m) :
    ∃ p ∈ ps, m ∈ p.hits r ∧ a ≤ m ∧ m ≤ b := by
  unfold minCand at h
  have hmem := listMin_mem h
  rw [List.mem_flatMap] at hmem
  obtain ⟨p, hp, hm⟩ := hmem
  unfold candsIn at hm
  rw [List.mem_filter] at hm
  simp only [Bool.and_eq_true, decide_eq_true_eq] at hm
  exact ⟨p, hp, hm.1, hm.2.1, hm.2.2⟩

theorem bvhHit_node (nb : Aabb) (l rt : BvhT APrim) (r : Ray) (a b : ℚ) :
    bvhHit (.node nb l rt) r a b =
      match aabbHit nb r a b with
      | none => none
      | some _ =>
        match bvhHit l r a b with
        | some lr =>
          match bvhHit rt r a lr.t with
          | some rr => some rr
          | none => some lr
        | none => bvhHit rt r a b := by
  cases hbox : aabbHit nb r a b with
  | none => simp only [bvhHit, hbox]
  | some pr =>
    simp only [bvhHit, hbox]
    cases hL : bvhHit l r a b with
    | none =>
      simp only
      cases hR : bvhHit rt r a b <;> simp
    | some lr =>
      simp only
      cases hR : bvhHit rt r a lr.t <;> simp

theorem bvhHit_sound :
    ∀ (T : BvhT APrim) (r : Ray) (a b : ℚ) (rc : HitRec ℕ),
    bvhHit T r a b = some rc →
    ∃ p, p ∈ flattenT T ∧ rc.mat = p.mid ∧ rc.t ∈ p.hits r ∧
      a ≤ rc.t ∧ rc.t ≤ b := by
  intro T
  induction T with
  | prim q =>
    intro r a b rc h
    have hq := aprimHit_some (show q.hit r a b = some rc from h)
    exact ⟨q, by simp [flattenT], hq.2.2.2, hq.1, hq.2.1, hq.2.2.1⟩
  | node nb l rt ihl ihr =>
    intro r a b rc h
    unfold bvhHit at h
    cases hbox : aabbHit nb r a b with
    | none => rw [hbox] at h; simp at h
    | some pr =>
      rw [hbox] at h
      simp only at h
      cases hL : bvhHit l r a b with
      | none =>
        rw [hL] at h
        simp only at h
        cases hR : bvhHit rt r a b with
        | none => rw [hR] at h; simp at h
        | some rrec =>
          rw [hR] at h
          simp only [Option.some.injEq] at h
          subst h
          obtain ⟨p, hp, hrest⟩ := ihr r a b rrec hR
          exact ⟨p, by simp [flattenT, hp], hrest⟩
      | some lrec =>
        rw [hL] at h
        simp only at h
        cases hR : bvhHit rt r a lrec.t with
        | none =>
          rw [hR] at h
          simp only [Option.some.injEq] at h
          subst h
          obtain ⟨p, hp, hrest⟩ := ihl r a b lrec hL
          exact ⟨p, by simp [flattenT, hp], hrest⟩
        | some rrec =>
          rw [hR] at h
          simp only [Option.some.injEq] at h
          subst h
          obtain ⟨pl, hpl, hlrest⟩ := ihl r a b lrec hL
          obtain ⟨p, hp, hm, hmem, hge, hle⟩ := ihr r a lrec.t rrec hR
          exact ⟨p, by simp [flattenT, hp], hm, hmem, hge,
            le_trans hle hlrest.2.2.2⟩

theorem bvhHit_map_t (r : Ray) (a b : ℚ)
    (hdx : r.dir.x ≠ 0) (hdy : r.dir.y ≠ 0) (hdz : r.dir.z ≠ 0) :
    ∀ (T : BvhT APrim),
    surroundOk aprimBox T = true →
    (∀ p ∈ flattenT T, (p.hits r).Sorted (· ≤ ·)) →
    (∀ p ∈ flattenT T, ∀ τ ∈ p.hits r, a ≤ τ → τ ≤ b →
      a < τ ∧ strictlyInside (r.at τ) p.box) →
    ∀ b', a < b' → b' ≤ b →
    (bvhHit T r a b').map (fun rec => rec.t) =
      minCand (flattenT T) r a b' := by
  intro T
  induction T with
  | prim q =>
    intro _ hsort hgraze b' hab hbb
    have hq : (bvhHit (.prim q) r a b').map (fun rec => rec.t) =
        (q.hit r a b').map (fun rec => rec.t) := rfl
    rw [hq, aprimHit_map_t q r a b' (hsort q (by simp [flattenT]))]
    show listMin (candsIn q r a b') = minCand [q] r a b'
    rw [minCand_cons, minCand_nil, omin_none_right]
  | node nb l rt ihl ihr =>
    intro hok hsort hgraze b' hab hbb
    have hflat : flattenT (.node nb l rt) = flattenT l ++ flattenT rt := rfl
    have hok2 := hok
    unfold surroundOk at hok2
    simp only [Bool.and_eq_true] at hok2
    have hokl : surroundOk aprimBox l = true := hok2.1.2
    have hokr : surroundOk aprimBox rt = true := hok2.2
    have hsortl : ∀ p ∈ flattenT l, (p.hits r).Sorted (· ≤ ·) := fun p hp =>
      hsort p (by rw [hflat]; exact List.mem_append_left _ hp)
    have hsortr : ∀ p ∈ flattenT rt, (p.hits r).Sorted (· ≤ ·) := fun p hp =>
      hsort p (by rw [hflat]; exact List.mem_append_right _ hp)
    have hgrazel : ∀ p ∈ flattenT l, ∀ τ ∈ p.hits r, a ≤ τ → τ ≤ b →
        a < τ ∧ strictlyInside (r.at τ) p.box := fun p hp =>
      hgraze p (by rw [hflat]; exact List.mem_append_left _ hp)
    have hgrazer : ∀ p ∈ flattenT rt, ∀ τ ∈ p.hits r, a ≤ τ → τ ≤ b →
        a < τ ∧ strictlyInside (r.at τ) p.box := fun p hp =>
      hgraze p (by rw [hflat]; exact List.mem_append_right _ hp)
    rw [hflat, minCand_append, bvhHit_node]
    cases hbox : aabbHit nb r a b' with
    | none =>
      show (none : Option (HitRec ℕ)).map (fun rc => rc.t) = _
      cases hmcl : minCand (flattenT l) r a b' with
      | some m =>
        exfalso
        obtain ⟨p, hp, hmem, hge, hle⟩ := minCand_some_mem hmcl
        have hg := hgrazel p hp m hmem hge (le_trans hle hbb)
        have hcont := surroundOk_contains (.node nb l rt) hok nb rfl p
          (by rw [hflat]; exact List.mem_append_left _ hp)
        exact aabbHit_pass hdx hdy hdz (strictlyInside_mono hcont hg.2)
          hg.1 hle hbox
      | none =>
        cases hmcr : minCand (flattenT rt) r a b' with
        | some m =>
          exfalso
          obtain ⟨p, hp, hmem, hge, hle⟩ := minCand_some_mem hmcr
          have hg := hgrazer p hp m hmem hge (le_trans hle hbb)
          have hcont := surroundOk_contains (.node nb l rt) hok nb rfl p
            (by rw [hflat]; exact List.mem_append_right _ hp)
          exact aabbHit_pass hdx hdy hdz (strictlyInside_mono hcont hg.2)
            hg.1 hle hbox
        | none => rfl
    | some pr =>
      cases hL : bvhHit l r a b' with
      | none =>
        have hmcl : minCand (flattenT l) r a b' = none := by
          have hml := ihl hokl hsortl hgrazel b' hab hbb
          rw [hL] at hml
          exact hml.symm
        show (bvhHit rt r a b').map (fun rc => rc.t) = _
        rw [hmcl, omin_none_left]
        exact ihr hokr hsortr hgrazer b' hab hbb
      | some lrec =>
        have hmcl := ihl hokl hsortl hgrazel b' hab hbb
        rw [hL] at hmcl
        simp only [Option.map_some'] at hmcl
        obtain ⟨pl, hpl, hmeml, hgel, hlel⟩ := minCand_some_mem hmcl.symm
        have hlt : a < lrec.t :=
          (hgrazel pl hpl lrec.t hmeml hgel (le_trans hlel hbb)).1
        have hltb : lrec.t ≤ b := le_trans hlel hbb
        have hclip := minCand_clip (le_refl lrec.t) hlel (flattenT rt) r a
        have hmcr := ihr hokr hsortr hgrazer lrec.t hlt hltb
        show (match bvhHit rt r a lrec.t with
              | some rr => some rr
              | none => some lrec).map (fun rc : HitRec ℕ => rc.t) =
          omin (minCand (flattenT l) r a b') (minCand (flattenT rt) r a b')
        rw [← hmcl, hclip]
        cases hR : bvhHit rt r a lrec.t with
        | none =>
          rw [hR] at hmcr
          simp only [Option.map_none'] at hmcr
          rw [← hmcr, omin_none_right]
          rfl
        | some rrec =>
          rw [hR] at hmcr
          simp only [Option.map_some'] at hmcr
          obtain ⟨prr, hprr, hmemr, hger, hler⟩ := minCand_some_mem hmcr.symm
          rw [← hmcr, omin_comm, omin_some_absorb hler]
          rfl

theorem mkNode_flatten {P : Type} (boxOf : P → Option Aabb)
    (l r T : BvhT P) (h : mkNode boxOf l r = some T) :
    flattenT T = flattenT l ++ flattenT r := by
  unfold mkNode at h
  cases hbl : bvhBoundingBox boxOf l with
  | none => rw [hbl] at h; simp at h
  | some bl =>
    cases hbr : bvhBoundingBox boxOf r with
    | none => rw [hbl, hbr] at h; simp at h
    | some br =>
      rw [hbl, hbr] at h
      rw [Option.some.injEq] at h
      subst h
      rfl

theorem splitVolumes_mem {P : Type} (boxOf : P → Option Aabb)
    (axisOf : List P → Fin 3) :
    ∀ (objects : List P) (T : BvhT P),
    splitVolumes boxOf axisOf objects = some T →
    ∀ x, x ∈ flattenT T ↔ x ∈ objects := by
  have H : ∀ (n : ℕ) (objects : List P), objects.length ≤ n → ∀ T : BvhT P,
      splitVolumes boxOf axisOf objects = some T →
      ∀ x, x ∈ flattenT T ↔ x ∈ objects := by
    intro n
    induction n with
    | zero =>
      intro objects hlen T h
      have hobj : objects = [] := List.length_eq_zero.mp (Nat.le_zero.mp hlen)
      subst hobj
      simp [splitVolumes] at h
    | succ n ih =>
      intro objects hlen T h
      match objects, hlen, h with
      | [], hlen, h => simp [splitVolumes] at h
      | [p], hlen, h =>
        simp only [splitVolumes] at h
        rw [mkNode_flatten boxOf _ _ _ h]
        intro x
        simp [flattenT]
      | [p, q], hlen, h =>
        simp only [splitVolumes] at h
        cases hbp : boxOf p with
        | none => rw [hbp] at h; simp at h
        | some bp =>
          rw [hbp] at h
          cases hbq : boxOf q with
          | none => rw [hbq] at h; simp at h
          | some bq =>
            rw [hbq] at h
            dsimp only at h
            split_ifs at h <;>
              · rw [mkNode_flatten boxOf _ _ _ h]
                intro x
                simp [flattenT]
                try tauto
      | p :: q :: sx :: rest, hlen, h =>
        rw [splitVolumes] at h
        by_cases hany :
            ((p :: q :: sx :: rest).any fun a => (boxOf a).isNone) = true
        · rw [if_pos hany] at h
          simp at h
        · rw [if_neg hany] at h
          simp only at h
          have hSlen : (sortByBoxMin boxOf (axisOf (p :: q :: sx :: rest))
              (p :: q :: sx :: rest)).length = rest.length + 3 := by
            simp [sortByBoxMin, List.length_mergeSort]
          cases htake : splitVolumes boxOf axisOf
              ((sortByBoxMin boxOf (axisOf (p :: q :: sx :: rest))
                (p :: q :: sx :: rest)).take
                ((sortByBoxMin boxOf (axisOf (p :: q :: sx :: rest))
                  (p :: q :: sx :: rest)).length / 2)) with
          | none => rw [htake] at h; simp at h
          | some lT =>
            rw [htake] at h
            cases hdrop : splitVolumes boxOf axisOf
                ((sortByBoxMin boxOf (axisOf (p :: q :: sx :: rest))
                  (p :: q :: sx :: rest)).drop
                  ((sortByBoxMin boxOf (axisOf (p :: q :: sx :: rest))
                    (p :: q :: sx :: rest)).length / 2)) with
            | none => rw [hdrop] at h; simp at h
            | some rT =>
              rw [hdrop] at h
              dsimp only at h
              have hlen2 : rest.length + 3 ≤ n + 1 := by simpa using hlen
              have ihl := ih _ (by rw [List.length_take, hSlen]; omega) _ htake
              have ihr := ih _ (by rw [List.length_drop, hSlen]; omega) _ hdrop
              intro x
              rw [mkNode_flatten boxOf _ _ _ h, List.mem_append, ihl x, ihr x,
                ← List.mem_append, List.take_append_drop]
              unfold sortByBoxMin
              exact (List.mergeSort_perm _ _).mem_iff
  exact fun objects T h x => H objects.length objects le_rfl T h x

theorem minCand_mem_congr {l1 l2 : List APrim}
    (h : ∀ x, x ∈ l1 ↔ x ∈ l2) (r : Ray) (a b : ℚ) :
    minCand l1 r a b = minCand l2 r a b := by
  unfold minCand
  apply listMin_eq_of_mem_iff
  intro τ
  simp only [List.mem_flatMap]
  constructor
  · rintro ⟨p, hp, hc⟩
    exact ⟨p, (h p).mp hp, hc⟩
  · rintro ⟨p, hp, hc⟩
    exact ⟨p, (h p).mpr hp, hc⟩

theorem rectAPrim_hit_agrees (rect : XYRect ℕ) (r : Ray) (a b : ℚ) :
    ((rectAPrim rect).hit r a b).map (fun rc => rc.t) =
      (rect.hit r a b).map (fun rc => rc.t) := by
  unfold rectAPrim APrim.hit rectCandidates XYRect.hit
  simp only
  by_cases hp : (r.orig.x + (rect.k - r.orig.z) / r.dir.z * r.dir.x < rect.x0 ∨
      r.orig.x + (rect.k - r.orig.z) / r.dir.z * r.dir.x > rect.x1 ∨
      r.orig.y + (rect.k - r.orig.z) / r.dir.z * r.dir.y < rect.y0 ∨
      r.orig.y + (rect.k - r.orig.z) / r.dir.z * r.dir.y > rect.y1)
  · rw [if_pos hp]
    split_ifs <;> rfl
  · rw [if_neg hp]
    by_cases hpred : ((fun τ => decide (a ≤ τ) && decide (τ ≤ b))
        ((rect.k - r.orig.z) / r.dir.z)) = true
    · rw [@List.find?_cons_of_pos _
        (fun τ => decide (a ≤ τ) && decide (τ ≤ b))
        ((rect.k - r.orig.z) / r.dir.z) [] hpred]
      simp only [Bool.and_eq_true, decide_eq_true_eq] at hpred
      rw [if_neg (by push_neg; exact ⟨hpred.1, hpred.2⟩), if_neg hp]
      simp [withFaceNormal]
    · rw [@List.find?_cons_of_neg _
        (fun τ => decide (a ≤ τ) && decide (τ ≤ b))
        ((rect.k - r.orig.z) / r.dir.z) [] hpred]
      simp only [Bool.and_eq_true, decide_eq_true_eq, not_and, not_le] at hpred
      rcases le_or_lt a ((rect.k - r.orig.z) / r.dir.z) with hge | hlt
      · rw [if_pos (Or.inr (hpred hge))]
        rfl
      · rw [if_pos (Or.inl hlt)]
        rfl

/-- C2 (amended): over a collection of abstract primitives — each summarized
by its sorted candidate hit parameters along the ray, its box, and an
identity tag — the BVH built by `split_volumes` answers `hit` with the same
`t` as the linear `HittableList` scan, and the hit it returns is a genuine
hit of some primitive of the collection at that same `t` (the primitive
itself is determined only up to ties at equal `t`, the right subtree being
preferred).  Hypotheses exclude the boundary cases where the claim fails:
all ray direction components nonzero (the slab test of the source relies on
IEEE infinities otherwise), a nondegenerate query interval, and no
candidate that grazes the query interval ends or the boundary of its own
box — the counterexample shows the equivalence genuinely breaks there. -/
theorem C2_bvh_matches_list (ps : List APrim) (axisOf : List APrim → Fin 3)
    (T : BvhT APrim) (r : Ray) (a b : ℚ)
    (hbuild : splitVolumes aprimBox axisOf ps = some T)
    (hdx : r.dir.x ≠ 0) (hdy : r.dir.y ≠ 0) (hdz : r.dir.z ≠ 0)
    (hab : a < b)
    (hsort : ∀ p ∈ ps, (p.hits r).Sorted (· ≤ ·))
    (hgraze : ∀ p ∈ ps, ∀ τ ∈ p.hits r, a ≤ τ → τ ≤ b →
      a < τ ∧ strictlyInside (r.at τ) p.box) :
    (bvhHit T r a b).map (fun rc => rc.t) =
      (hittableListHit ps r a b).map (fun rc => rc.t) ∧
    (∀ rc, bvhHit T r a b = some rc →
      ∃ p ∈ ps, rc.mat = p.mid ∧ rc.t ∈ p.hits r) := by
  have hmem := splitVolumes_mem aprimBox axisOf ps T hbuild
  have hok := splitVolumes_surroundOk aprimBox axisOf ps T hbuild
  constructor
  · rw [hittableListHit_map_t ps r a b hsort,
      bvhHit_map_t r a b hdx hdy hdz T hok
        (fun p hp => hsort p ((hmem p).mp hp))
        (fun p hp => hgraze p ((hmem p).mp hp)) b hab le_rfl]
    exact minCand_mem_congr hmem r a b
  · intro rc h
    obtain ⟨p, hp, hmat, hmemt, _, _⟩ := bvhHit_sound T r a b rc h
    exact ⟨p, (hmem p).mp hp, hmat, hmemt⟩

/-- Concrete refutation of C2 as stated: the unit xy rect at `z = 1`
(candidate model of the source rect), queried over `(t_min, t_max) = (0, 1)`
by the ray from `(2, 2, 0)` along `(−1, −1, 1)`.  The linear list scan finds
the hit at `t = 1` (accepted at `t = t_max` exactly, entering the padded
box exactly at its x face), but the BVH built over the single-element
collection answers `None`: the slab interval degenerates
(`tmax = 1 ≤ 1 = tmin`) and the node is pruned.  This is a lost hit, not a
tie between coplanar hits. -/
theorem C2_counterexample :
    ((splitVolumes aprimBox (fun _ => 0) [rectAPrim ⟨0, 1, 0, 1, 1, 3⟩]).map
        fun T => bvhHit T ⟨⟨2, 2, 0⟩, ⟨-1, -1, 1⟩, 0⟩ 0 1) = some none ∧
    (hittableListHit [rectAPrim ⟨0, 1, 0, 1, 1, 3⟩]
        ⟨⟨2, 2, 0⟩, ⟨-1, -1, 1⟩, 0⟩ 0 1).map (fun rc => rc.t) = some 1 := by
  have hbuild : splitVolumes aprimBox (fun _ => 0)
      [rectAPrim ⟨0, 1, 0, 1, 1, 3⟩] =
      some (.node ⟨⟨0, 0, 999/1000⟩, ⟨1, 1, 1001/1000⟩⟩
        (.prim (rectAPrim ⟨0, 1, 0, 1, 1, 3⟩))
        (.prim (rectAPrim ⟨0, 1, 0, 1, 1, 3⟩))) := by
    simp only [splitVolumes, mkNode, bvhBoundingBox, aprimBox, rectAPrim,
      XYRect.boundingBox, Aabb.surrounding, Option.some.injEq]
    norm_num
  have hbox : aabbHit ⟨⟨0, 0, 999/1000⟩, ⟨1, 1, 1001/1000⟩⟩
      ⟨⟨2, 2, 0⟩, ⟨-1, -1, 1⟩, 0⟩ 0 1 = none := by
    norm_num [aabbHit, slabAxis]
  constructor
  · rw [hbuild]
    simp only [Option.map_some']
    rw [bvhHit_node, hbox]
  · have hhits : (rectAPrim ⟨0, 1, 0, 1, 1, 3⟩).hits
        ⟨⟨2, 2, 0⟩, ⟨-1, -1, 1⟩, 0⟩ = [1] := by
      norm_num [rectAPrim, rectCandidates]
    unfold hittableListHit listHitGo APrim.hit
    rw [hhits]
    norm_num [List.find?]
    exact ⟨_, rfl, rfl⟩

/-- Closed instance of the amended C2 theorem: the unit xy rect as an
abstract primitive, queried over `(0, 1)` by a ray that meets it strictly
inside its box at `t = 1/4`; the BVH and the list scan agree. -/
theorem C2_witness :
    (bvhHit (.node ⟨⟨0, 0, 999/1000⟩, ⟨1, 1, 1001/1000⟩⟩
        (.prim (rectAPrim ⟨0, 1, 0, 1, 1, 7⟩))
        (.prim (rectAPrim ⟨0, 1, 0, 1, 1, 7⟩)))
      ⟨⟨1/4, 1/4, 0⟩, ⟨1, 1, 4⟩, 0⟩ 0 1).map (fun rc => rc.t) =
    (hittableListHit [rectAPrim ⟨0, 1, 0, 1, 1, 7⟩]
      ⟨⟨1/4, 1/4, 0⟩, ⟨1, 1, 4⟩, 0⟩ 0 1).map (fun rc => rc.t) :=
  (C2_bvh_matches_list [rectAPrim ⟨0, 1, 0, 1, 1, 7⟩] (fun _ => 0)
    (.node ⟨⟨0, 0, 999/1000⟩, ⟨1, 1, 1001/1000⟩⟩
      (.prim (rectAPrim ⟨0, 1, 0, 1, 1, 7⟩))
      (.prim (rectAPrim ⟨0, 1, 0, 1, 1, 7⟩)))
    ⟨⟨1/4, 1/4, 0⟩, ⟨1, 1, 4⟩, 0⟩ 0 1
    (by
      simp only [splitVolumes, mkNode, bvhBoundingBox, aprimBox, rectAPrim,
        XYRect.boundingBox, Aabb.surrounding, Option.some.injEq]
      norm_num)
    (by norm_num) (by norm_num) (by norm_num) (by norm_num)
    (by
      intro p hp
      simp only [List.mem_singleton] at hp
      subst hp
      have hh : (rectAPrim ⟨0, 1, 0, 1, 1, 7⟩).hits
          ⟨⟨1/4, 1/4, 0⟩, ⟨1, 1, 4⟩, 0⟩ = [1/4] := by
        norm_num [rectAPrim, rectCandidates]
      rw [hh]
      exact List.sorted_singleton _)
    (by
      intro p hp τ hτ hge hle
      simp only [List.mem_singleton] at hp
      subst hp
      have hh : (rectAPrim ⟨0, 1, 0, 1, 1, 7⟩).hits
          ⟨⟨1/4, 1/4, 0⟩, ⟨1, 1, 4⟩, 0⟩ = [1/4] := by
        norm_num [rectAPrim, rectCandidates]
      rw [hh] at hτ
      simp only [List.mem_singleton] at hτ
      subst hτ
      refine ⟨by norm_num, ?_⟩
      norm_num [strictlyInside, rectAPrim, XYRect.boundingBox, Ray.at,
        Vec3.mk_add, Vec3.mk_smul])).1

end RT
